import Mathlib

/-!
# cryptocode: the data transformation pipeline of `main.js`

A shallow embedding of the record derivation (`Model.processData`), the Collection
Store (`Model.coins`), the sort / filter / band utilities (`Utility.*`), the Model
queries and `Controller.filterFull`, followed by theorems about them.

Modelling conventions.

* JavaScript numbers are `JSNum`: `NaN`, the two infinities, or a finite value. The
  operations `JSNum.sub`, `add`, `mul`, `div` are exact (over `ℚ`) and the sign of zero is
  not represented. Rounding to binary64 is `binary64`; `Model.processData.coinData64` is
  the record derivation with every conversion and operation rounded, and the statement
  about the remaining percentage, which depends on rounding, is made about it.
* A Promise is represented by the state it ends in (`PromiseState`): fulfilled with a
  value, rejected, or pending for ever.
* `Model.coins` is a process-wide array. Every function that reads or writes it takes the
  array contents as an argument and, when it changes them, returns the new contents.
-/

namespace Cryptocode

/-! ## JavaScript numbers -/

/-- A JavaScript Number value. -/
inductive JSNum
  | nan
  | negInf
  | posInf
  | fin (q : ℚ)
  deriving DecidableEq

namespace JSNum

/-- The JavaScript `a - b` on numbers. -/
def sub : JSNum → JSNum → JSNum
  | nan, _ => nan
  | _, nan => nan
  | posInf, posInf => nan
  | negInf, negInf => nan
  | posInf, _ => posInf
  | negInf, _ => negInf
  | fin _, posInf => negInf
  | fin _, negInf => posInf
  | fin a, fin b => fin (a - b)

/-- The JavaScript `a + b` on numbers. -/
def add : JSNum → JSNum → JSNum
  | nan, _ => nan
  | _, nan => nan
  | posInf, negInf => nan
  | negInf, posInf => nan
  | posInf, _ => posInf
  | negInf, _ => negInf
  | fin _, posInf => posInf
  | fin _, negInf => negInf
  | fin a, fin b => fin (a + b)

/-- The JavaScript `a * b` on numbers. -/
def mul : JSNum → JSNum → JSNum
  | nan, _ => nan
  | _, nan => nan
  | fin a, fin b => fin (a * b)
  | fin a, posInf => if a = 0 then nan else if 0 < a then posInf else negInf
  | fin a, negInf => if a = 0 then nan else if 0 < a then negInf else posInf
  | posInf, fin b => if b = 0 then nan else if 0 < b then posInf else negInf
  | negInf, fin b => if b = 0 then nan else if 0 < b then negInf else posInf
  | posInf, posInf => posInf
  | negInf, negInf => posInf
  | posInf, negInf => negInf
  | negInf, posInf => negInf

/-- The JavaScript `a / b` on numbers (a zero divisor is read as `+0`). -/
def div : JSNum → JSNum → JSNum
  | nan, _ => nan
  | _, nan => nan
  | fin a, fin b =>
    if b = 0 then (if a = 0 then nan else if 0 < a then posInf else negInf) else fin (a / b)
  | fin _, posInf => fin 0
  | fin _, negInf => fin 0
  | posInf, fin b => if b < 0 then negInf else posInf
  | negInf, fin b => if b < 0 then posInf else negInf
  | posInf, posInf => nan
  | posInf, negInf => nan
  | negInf, posInf => nan
  | negInf, negInf => nan

/-- The JavaScript comparison `a <= b`: false as soon as one side is `NaN`. -/
def le : JSNum → JSNum → Bool
  | nan, _ => false
  | _, nan => false
  | negInf, _ => true
  | _, posInf => true
  | posInf, _ => false
  | _, negInf => false
  | fin a, fin b => decide (a ≤ b)

/-- The JavaScript comparison `a >= b`: false as soon as one side is `NaN`. -/
def ge (a b : JSNum) : Bool := le b a

/-- The test `v > 0`, which a sort applies to the value of its comparator. -/
def isPos : JSNum → Bool
  | posInf => true
  | fin q => decide (0 < q)
  | _ => false

end JSNum

/-! ## Promises -/

/-- Reasons a Promise of this program is rejected with. -/
inductive Rejection
  | typeError
  deriving DecidableEq

/-- The state a Promise ends in. `pending` is a Promise that is never settled: no
`then` callback registered on it ever runs. -/
inductive PromiseState (α : Type)
  | pending
  | fulfilled (value : α)
  | rejected (reason : Rejection)
  deriving DecidableEq

namespace PromiseState

/-- The call `resolve(v)` of an executor: settles a pending Promise, and does nothing to
a settled one. -/
def resolve {α : Type} (p : PromiseState α) (v : α) : PromiseState α :=
  match p with
  | pending => fulfilled v
  | s => s

/-- The Promise `p.then(f)` for a callback `f` that returns a Promise: `f` runs on the
fulfilment value and its Promise is adopted; rejection and pending pass along. -/
def andThen {α β : Type} (p : PromiseState α) (f : α → PromiseState β) : PromiseState β :=
  match p with
  | pending => pending
  | fulfilled v => f v
  | rejected e => rejected e

end PromiseState

/-- A value passed to `.then` as fulfilment handler. Only a function is callable. -/
inductive Handler (α : Type)
  | function (f : α → PromiseState α)
  | promiseObject (p : PromiseState α)
  | undefined

/-- The Promise `p.then(h)`: ECMAScript replaces a handler that is not callable by the
identity, so the fulfilment value of `p` passes through unchanged. -/
def PromiseState.thenHandler {α : Type} (p : PromiseState α) : Handler α → PromiseState α
  | Handler.function f => p.andThen f
  | Handler.promiseObject _ => p
  | Handler.undefined => p

/-! ## `Array.prototype.sort` -/

/-- The comparison a sort makes (ECMAScript `SortCompare`): the value of the comparator,
with `NaN` read as `+0`. -/
def sortCompare {α : Type} (comparefn : α → α → JSNum) (x y : α) : JSNum :=
  match comparefn x y with
  | JSNum.nan => JSNum.fin 0
  | v => v

/-- One insertion of the stable sort: `x`, which preceded every element of the sorted
list, moves right past the elements it compares greater than. -/
def sortInsert {α : Type} (comparefn : α → α → JSNum) (x : α) : List α → List α
  | [] => [x]
  | y :: ys =>
    if (sortCompare comparefn x y).isPos then y :: sortInsert comparefn x ys
    else x :: y :: ys

/-- The contents of an array after `array.sort(comparefn)`, which is also the array the
call returns. ECMAScript requires the sort to be stable; for a consistent comparator
every stable sort yields this list. When the comparator returns `NaN` for some pair
(here: when a key is `NaN`) it is not consistent, the order is left to the engine, and
this list is one admissible outcome only: statements about the order of the result are
made for keys that are numbers. -/
def arraySort {α : Type} (comparefn : α → α → JSNum) : List α → List α
  | [] => []
  | x :: xs => sortInsert comparefn x (arraySort comparefn xs)

/-! ## `Number.prototype.toFixed(3)` -/

/-- The string `x.toFixed(3)`, by its shape. -/
inductive FixedStr
  /-- The string "NaN". -/
  | nan
  /-- The string "Infinity" or, when `negative`, "-Infinity". -/
  | infinity (negative : Bool)
  /-- A sign, the integer part `n / 1000`, a point and the three digits of `n % 1000`. -/
  | digits (negative : Bool) (n : Nat)
  /-- A number of magnitude at least `10^21`, printed by `ToString`. -/
  | large (q : ℚ)
  deriving DecidableEq

/-- The method `x.toFixed(3)`: a finite `x` below `10^21` in magnitude is printed as the
integer `n` for which `n / 1000` is nearest to `|x|` (the larger one on a tie). -/
def JSNum.toFixed3 : JSNum → FixedStr
  | JSNum.nan => FixedStr.nan
  | JSNum.posInf => FixedStr.infinity false
  | JSNum.negInf => FixedStr.infinity true
  | JSNum.fin q =>
    let x : ℚ := if q < 0 then -q else q
    if (10 : ℚ) ^ 21 ≤ x then FixedStr.large q
    else FixedStr.digits (decide (q < 0)) (Int.toNat (Rat.floor (x * 1000 + 1 / 2)))

namespace FixedStr

/-- The number a `toFixed(3)` string converts back to when it is used in arithmetic or
in a comparison. -/
def toNumber : FixedStr → JSNum
  | nan => JSNum.nan
  | infinity negative => if negative then JSNum.negInf else JSNum.posInf
  | digits negative n => JSNum.fin ((if negative then -1 else 1) * (n : ℚ) / 1000)
  | large q => JSNum.fin q

/-- Three decimal digits of a number below 1000, zero padded. -/
def pad3 (n : Nat) : String :=
  (if n < 10 then "00" else if n < 100 then "0" else "") ++ Nat.repr n

/-- The characters of the string, where the shape determines them. -/
def text : FixedStr → Option String
  | nan => some "NaN"
  | infinity negative => some (if negative then "-Infinity" else "Infinity")
  | digits negative n =>
    some ((if negative then "-" else "") ++ Nat.repr (n / 1000) ++ "." ++ pad3 (n % 1000))
  | large _ => none

end FixedStr

/-! ## Coin Data Object -/

/-- The class `CoinData`. -/
structure CoinData where
  id : Nat
  symbol : String
  name : String
  circulation : JSNum
  totalSupply : JSNum
  remainingCount : JSNum
  remainingPercent : FixedStr
  price : JSNum
  marketCap : JSNum
  oneHour : JSNum
  oneDay : JSNum
  sevenDay : JSNum
  deriving DecidableEq

/-! ## Raw ticker entries -/

/-- A numeric field of a raw ticker entry as delivered by `res.json()`. The code looks at
such a field in two ways only: it tests `=== null`, and it converts the field to a number
(`Number(v)`, and the same conversion inside `-` and `/`). A field that is not `null` is
therefore represented by the number it converts to, which is `NaN` for a string that does
not parse as a number and for a missing field. -/
inductive RawVal
  | null
  | number (v : JSNum)
  deriving DecidableEq

/-- One raw ticker entry, with the fields `Model.processData` reads. The fields `id` and
`symbol` are strings by type: an entry whose `id` is not a string, on which
`x.id.toUpperCase()` throws, is not represented. -/
structure RawEntry where
  id : String
  symbol : String
  available_supply : RawVal
  total_supply : RawVal
  max_supply : RawVal
  price_usd : RawVal
  market_cap_usd : RawVal
  percent_change_1h : RawVal
  percent_change_24h : RawVal
  percent_change_7d : RawVal

/-- The conversion `Number(v)`, which is also the conversion the arithmetic operators
apply to their operands: `null` converts to `0`. -/
def RawVal.toNumber : RawVal → JSNum
  | RawVal.null => JSNum.fin 0
  | RawVal.number v => v

/-! ## Utility -/

namespace Utility

/-- The state of the loop of `getCoinByName`: the variable `target` and the Promise. -/
structure GetCoinByNameState where
  target : Option CoinData
  promise : PromiseState (Option CoinData)

/-- The callback of `coins.map((x, i) => ...)` in `getCoinByName`, run on the elements
from index `i` on; `len` is `coins.length`. -/
def getCoinByName.loop (coin : String) (len : Nat) :
    Nat → List CoinData → GetCoinByNameState → GetCoinByNameState
  | _, [], st => st
  | i, x :: xs, st =>
    let target := if x.name = coin then some x else st.target
    let promise := if i = len - 1 then st.promise.resolve target else st.promise
    getCoinByName.loop coin len (i + 1) xs ⟨target, promise⟩

/-- The function `Utility.getCoinByName(coin, coins)`; `none` is `undefined`. -/
def getCoinByName (coin : String) (coins : List CoinData) : PromiseState (Option CoinData) :=
  (getCoinByName.loop coin coins.length 0 coins ⟨none, PromiseState.pending⟩).promise

/-- The values `(min, max)` that `getCoinsByMinMax` computes from `supply`. -/
def getCoinsByMinMax.minMax (supply : JSNum) : JSNum × JSNum :=
  if supply.le (JSNum.fin 16000000) then
    (supply.sub (JSNum.fin 1000000), supply.add (JSNum.fin 1000000))
  else if supply.le (JSNum.fin 60000000) then
    (supply.sub (JSNum.fin 3000000), supply.add (JSNum.fin 3000000))
  else if supply.le (JSNum.fin 100000000) then
    (supply.sub (JSNum.fin 20000000), supply.add (JSNum.fin 20000000))
  else if supply.le (JSNum.fin 500000000) then
    (supply.sub (JSNum.fin 75000000), supply.add (JSNum.fin 75000000))
  else if supply.le (JSNum.fin 1000000000) then
    (supply.sub (JSNum.fin 100000000), supply.add (JSNum.fin 100000000))
  else
    (supply.sub (JSNum.fin 500000000), supply.add (JSNum.fin 500000000))

/-- The state of the loop of `getCoinsByMinMax`: `relevantCoins` and the Promise. -/
structure GetCoinsByMinMaxState where
  relevantCoins : List CoinData
  promise : PromiseState (List CoinData)

/-- The callback of `coins.map((x, i) => ...)` in `getCoinsByMinMax`, run on the
elements from index `i` on; `len` is `coins.length`. -/
def getCoinsByMinMax.loop (min max : JSNum) (len : Nat) :
    Nat → List CoinData → GetCoinsByMinMaxState → GetCoinsByMinMaxState
  | _, [], st => st
  | i, x :: xs, st =>
    let relevantCoins :=
      if x.totalSupply.ge min && x.totalSupply.le max then st.relevantCoins ++ [x]
      else st.relevantCoins
    let promise := if i = len - 1 then st.promise.resolve relevantCoins else st.promise
    getCoinsByMinMax.loop min max len (i + 1) xs ⟨relevantCoins, promise⟩

/-- The function `Utility.getCoinsByMinMax(coin, coins)`. With `coin` undefined
(`none`), reading `coin.totalSupply` throws inside the executor and the Promise is
rejected. -/
def getCoinsByMinMax (coin : Option CoinData) (coins : List CoinData) :
    PromiseState (List CoinData) :=
  match coin with
  | none => PromiseState.rejected Rejection.typeError
  | some c =>
    let mm := getCoinsByMinMax.minMax c.totalSupply
    (getCoinsByMinMax.loop mm.1 mm.2 coins.length 0 coins ⟨[], PromiseState.pending⟩).promise

/-- What a sorting utility leaves behind: `coins.sort` reorders the array it is given,
and the Promise is resolved with that same array. -/
structure InPlaceSort where
  array : List CoinData
  promise : PromiseState (List CoinData)

/-- The sorting utility for a given comparator. -/
def sortWith (comparefn : CoinData → CoinData → JSNum) (coins : List CoinData) : InPlaceSort :=
  let sort := arraySort comparefn coins
  ⟨sort, PromiseState.fulfilled sort⟩

/-- The function `Utility.sortByPriceAsc(coins)`. -/
def sortByPriceAsc (coins : List CoinData) : InPlaceSort :=
  sortWith (fun a b => a.price.sub b.price) coins

/-- The function `Utility.sortByPriceDesc(coins)`. -/
def sortByPriceDesc (coins : List CoinData) : InPlaceSort :=
  sortWith (fun a b => b.price.sub a.price) coins

/-- The function `Utility.sortByRemainingAsc(coins)`: the two `toFixed` strings are
converted to numbers by the subtraction. -/
def sortByRemainingAsc (coins : List CoinData) : InPlaceSort :=
  sortWith (fun a b => a.remainingPercent.toNumber.sub b.remainingPercent.toNumber) coins

/-- The function `Utility.sortByTotalSupplyAsc(coins)`. -/
def sortByTotalSupplyAsc (coins : List CoinData) : InPlaceSort :=
  sortWith (fun a b => a.totalSupply.sub b.totalSupply) coins

/-- The function `Utility.filterLowSupply(coins)`: `filter` builds a new array. -/
def filterLowSupply (coins : List CoinData) : PromiseState (List CoinData) :=
  PromiseState.fulfilled (coins.filter (fun x => x.totalSupply.le (JSNum.fin 10000000)))

/-- The function `Utility.filterLowRemaining(coins)`: `filter` builds a new array. -/
def filterLowRemaining (coins : List CoinData) : PromiseState (List CoinData) :=
  PromiseState.fulfilled (coins.filter (fun x => x.remainingPercent.toNumber.le (JSNum.fin 26)))

end Utility

/-! ## Model -/

/-- The Promise `new Promise(resolve => { chain.then(res => resolve(res)) })`: it is
fulfilled when `chain` is, and is never settled otherwise (nothing calls `reject`). -/
def PromiseState.resolvedFrom {α : Type} (chain : PromiseState α) : PromiseState α :=
  match chain with
  | PromiseState.fulfilled v => PromiseState.pending.resolve v
  | _ => PromiseState.pending

/-- The outcome of a Model query that may reorder the store: the returned Promise and
the contents of `Model.coins` afterwards. -/
structure Query where
  promise : PromiseState (List CoinData)
  coins : List CoinData

namespace Model

/-- The record `new CoinData(...)` built for raw entry `x` at index `i`. The built-in
`String.prototype.toUpperCase` is the parameter `toUpperCase`. -/
def processData.coinData (toUpperCase : String → String) (x : RawEntry) (i : Nat) : CoinData :=
  let circ := x.available_supply
  let total := if x.max_supply = RawVal.null then x.total_supply else x.max_supply
  let remain := (total.toNumber).sub (circ.toNumber)
  let remainOne := (total.toNumber).sub remain
  let remainTwo := remainOne.div (total.toNumber)
  let remainPercent := (JSNum.fin 100).sub (remainTwo.mul (JSNum.fin 100))
  { id := i
    symbol := x.symbol
    name := toUpperCase x.id
    circulation := circ.toNumber
    totalSupply := total.toNumber
    remainingCount := remain
    remainingPercent := remainPercent.toFixed3
    price := x.price_usd.toNumber
    marketCap := x.market_cap_usd.toNumber
    oneHour := x.percent_change_1h.toNumber
    oneDay := x.percent_change_24h.toNumber
    sevenDay := x.percent_change_7d.toNumber }

/-- The state of the loop of `processData`: the Promise and `Model.coins`. -/
structure ProcessState where
  promise : PromiseState Unit
  coins : List CoinData

/-- The callback of `data.map((x, i) => ...)` in `processData`, run on the entries from
index `i` on; `len` is `data.length`. -/
def processData.loop (toUpperCase : String → String) (len : Nat) :
    Nat → List RawEntry → ProcessState → ProcessState
  | _, [], st => st
  | i, x :: xs, st =>
    let coins := st.coins ++ [processData.coinData toUpperCase x i]
    let promise := if i = len - 1 then st.promise.resolve () else st.promise
    processData.loop toUpperCase len (i + 1) xs ⟨promise, coins⟩

/-- The method `Model.processData(data)`, started with `Model.coins = coins`. -/
def processData (toUpperCase : String → String) (data : List RawEntry)
    (coins : List CoinData) : ProcessState :=
  processData.loop toUpperCase data.length 0 data ⟨PromiseState.pending, coins⟩

/-- The method `Model.sortPrice()`: the utility sorts `Model.coins` itself. -/
def sortPrice (coins : List CoinData) : Query :=
  let s := Utility.sortByPriceAsc coins
  ⟨PromiseState.resolvedFrom s.promise, s.array⟩

/-- The method `Model.sortRemaining()`: the utility sorts `Model.coins` itself. -/
def sortRemaining (coins : List CoinData) : Query :=
  let s := Utility.sortByRemainingAsc coins
  ⟨PromiseState.resolvedFrom s.promise, s.array⟩

/-- The method `Model.sortTotalSupply()`: the utility sorts `Model.coins` itself. -/
def sortTotalSupply (coins : List CoinData) : Query :=
  let s := Utility.sortByTotalSupplyAsc coins
  ⟨PromiseState.resolvedFrom s.promise, s.array⟩

/-- The method `Model.sortCheapestLowSupply()`. The first utility sorts `Model.coins`
itself; the filter builds a new array and the price sort reorders that new array. -/
def sortCheapestLowSupply (coins : List CoinData) : Query :=
  let s := Utility.sortByTotalSupplyAsc coins
  let chain := (s.promise.andThen Utility.filterLowSupply).andThen
    (fun filtered => (Utility.sortByPriceAsc filtered).promise)
  ⟨PromiseState.resolvedFrom chain, s.array⟩

/-- The method `Model.sortCheapestLowRemaining()`. The first utility sorts `Model.coins`
itself; the filter builds a new array and the price sort reorders that new array. -/
def sortCheapestLowRemaining (coins : List CoinData) : Query :=
  let s := Utility.sortByRemainingAsc coins
  let chain := (s.promise.andThen Utility.filterLowRemaining).andThen
    (fun filtered => (Utility.sortByPriceAsc filtered).promise)
  ⟨PromiseState.resolvedFrom chain, s.array⟩

/-- The method `Model.filterByRank(rank)`: reads `Model.coins`, builds a new array. -/
def filterByRank (rank : Nat) (coins : List CoinData) : PromiseState (List CoinData) :=
  PromiseState.pending.resolve (coins.filter (fun x => decide (x.id ≤ rank)))

/-- The method `Model.getRelatedCoins(coin)` on `Model.coins = coins`. The band filter
builds a new array, which the supply sort reorders; `Model.coins` is only read. The
outer Promise is resolved by the last callback of the chain and by nothing else. -/
def getRelatedCoins (coin : String) (coins : List CoinData) :
    PromiseState (Option CoinData × List CoinData) :=
  let chain := (Utility.getCoinByName coin coins).andThen (fun currentCoin =>
    ((Utility.getCoinsByMinMax currentCoin coins).andThen
      (fun relevant => (Utility.sortByTotalSupplyAsc relevant).promise)).andThen
      (fun res => PromiseState.fulfilled (currentCoin, res)))
  PromiseState.resolvedFrom chain

end Model

/-! ## Controller -/

namespace Controller

/-- The first statement of `filterFull`: the Model method chosen by `sort` is called on
the spot, and `filter` holds the Promise it returns (or stays `undefined`). -/
def filterFull.determine (sort : String) (coins : List CoinData) :
    Handler (List CoinData) × List CoinData :=
  if sort = "Low Price & Low Total Supply" then
    let q := Model.sortCheapestLowSupply coins
    (Handler.promiseObject q.promise, q.coins)
  else if sort = "Low Price & Low Remaining Supply" then
    let q := Model.sortCheapestLowRemaining coins
    (Handler.promiseObject q.promise, q.coins)
  else if sort = "Lowest Price" then
    let q := Model.sortPrice coins
    (Handler.promiseObject q.promise, q.coins)
  else if sort = "Lowest Total Supply" then
    let q := Model.sortTotalSupply coins
    (Handler.promiseObject q.promise, q.coins)
  else if sort = "Lowest Remaining Supply" then
    let q := Model.sortRemaining coins
    (Handler.promiseObject q.promise, q.coins)
  else (Handler.undefined, coins)

/-- The method `Controller.filterFull(sort, rank)` on `Model.coins = coins`. The field
`promise` is the Promise on which `.then(this.view.displayData)` is registered, that is
`clearTable().then(() => filterByRank(rank)).then(filter)`: its value is the sequence
handed to the display. The field `coins` is `Model.coins` afterwards. -/
def filterFull (sort : String) (rank : Nat) (coins : List CoinData) : Query :=
  let d := filterFull.determine sort coins
  ⟨(Model.filterByRank rank d.2).thenHandler d.1, d.2⟩

end Controller

/-! ## Definitions used by the statements -/

/-- The key by which `Controller.filterFull` reorders the store for a sort selection:
the key of the first (or only) sorting utility that the chosen Model method applies to
`Model.coins`. No key for a selection outside the five of the menu. -/
def Controller.filterFull.storeKey (sort : String) : Option (CoinData → JSNum) :=
  if sort = "Low Price & Low Total Supply" then some (fun x => x.totalSupply)
  else if sort = "Low Price & Low Remaining Supply" then
    some (fun x => x.remainingPercent.toNumber)
  else if sort = "Lowest Price" then some (fun x => x.price)
  else if sort = "Lowest Total Supply" then some (fun x => x.totalSupply)
  else if sort = "Lowest Remaining Supply" then some (fun x => x.remainingPercent.toNumber)
  else none

/-- The contents of `Model.coins` after a series of main-view queries `(sort, rank)`, run
one after the other. -/
def Controller.runQueries : List (String × Nat) → List CoinData → List CoinData
  | [], coins => coins
  | q :: qs, coins => Controller.runQueries qs (Controller.filterFull q.1 q.2 coins).coins

/-- The last record of a sequence that is named `coin`. -/
def lastNamed (coin : String) (coins : List CoinData) : Option CoinData :=
  coins.reverse.find? (fun x => decide (x.name = coin))

/-- The step table of the specification: threshold and half-width of each row, in
ascending threshold order. -/
def specStepTable : List (ℚ × ℚ) :=
  [(16000000, 1000000), (60000000, 3000000), (100000000, 20000000),
   (500000000, 75000000), (1000000000, 100000000)]

/-- The half-width the specification assigns to a total supply: that of the first row
whose threshold is at least the supply, otherwise 500,000,000. -/
def specHalfWidth (totalSupply : JSNum) : ℚ :=
  match specStepTable.find? (fun row => totalSupply.le (JSNum.fin row.1)) with
  | some row => row.2
  | none => 500000000

/-- The band `[totalSupply - half-width, totalSupply + half-width]` of the
specification. -/
def specSupplyBand (totalSupply : JSNum) : JSNum × JSNum :=
  (totalSupply.sub (JSNum.fin (specHalfWidth totalSupply)),
   totalSupply.add (JSNum.fin (specHalfWidth totalSupply)))

/-- The records `Model.processData` appends for the entries `xs`, the first of which
has index `i`. -/
def derivedFrom (toUpperCase : String → String) : Nat → List RawEntry → List CoinData
  | _, [] => []
  | i, x :: xs => Model.processData.coinData toUpperCase x i :: derivedFrom toUpperCase (i + 1) xs

/-! ## binary64 -/

/-- The number of halvings that bring `n` below 2, with `fuel` halvings allowed. -/
def leadingBit.go : Nat → Nat → Nat
  | 0, _ => 0
  | fuel + 1, n => if n < 2 then 0 else leadingBit.go fuel (n / 2) + 1

/-- The position of the leading binary digit of `n`: `2^k ≤ n < 2^(k+1)` for `n ≠ 0`. -/
def leadingBit (n : Nat) : Nat := leadingBit.go n n

/-- The binary exponent of a positive rational `a`: the `e` with `2^e ≤ a < 2^(e+1)`,
found from the leading bits of numerator and denominator. -/
def floorLog2 (a : ℚ) : ℤ :=
  let e : ℤ := (leadingBit a.num.natAbs : ℤ) - (leadingBit a.den : ℤ)
  if (2 : ℚ) ^ e ≤ a then e else e - 1

/-- The integer nearest to `x`, the even one when two are equally near. -/
def roundHalfEven (x : ℚ) : ℤ :=
  let f := Rat.floor x
  if x - f < 1 / 2 then f
  else if 1 / 2 < x - f then f + 1
  else if f % 2 = 0 then f else f + 1

/-- The binary64 value nearest to `q`, ties to even, which is what every arithmetic
operation and every conversion of the engine delivers: 53 significant bits, that is a
whole multiple of `2^(e-52)` for the exponent `e` of `q`; below the exponent -1022 the
spacing stays `2^-1074`; a rounded magnitude of `2^1024` or more is an infinity. -/
def binary64 (q : ℚ) : JSNum :=
  if q = 0 then JSNum.fin 0
  else
    let a : ℚ := if q < 0 then -q else q
    let e : ℤ := max (floorLog2 a) (-1022)
    let m : ℤ := roundHalfEven (a / (2 : ℚ) ^ (e - 52))
    let v : ℚ := (m : ℚ) * (2 : ℚ) ^ (e - 52)
    if (2 : ℚ) ^ (1024 : ℤ) ≤ v then (if q < 0 then JSNum.negInf else JSNum.posInf)
    else JSNum.fin (if q < 0 then -v else v)

/-- The result of an exact operation as the engine stores it. -/
def JSNum.round64 : JSNum → JSNum
  | JSNum.fin q => binary64 q
  | v => v

/-- The record `new CoinData(...)` of `Model.processData` for raw entry `x` at index `i`
as the engine computes it: the lines of `processData.coinData`, with each `Number(...)`
conversion and each `-`, `/`, `*` delivering the nearest binary64 value. -/
def Model.processData.coinData64 (toUpperCase : String → String) (x : RawEntry) (i : Nat) :
    CoinData :=
  let circ := x.available_supply.toNumber.round64
  let total :=
    (if x.max_supply = RawVal.null then x.total_supply else x.max_supply).toNumber.round64
  let remain := (total.sub circ).round64
  let remainOne := (total.sub remain).round64
  let remainTwo := (remainOne.div total).round64
  let remainPercent := ((JSNum.fin 100).sub (remainTwo.mul (JSNum.fin 100)).round64).round64
  { id := i
    symbol := x.symbol
    name := toUpperCase x.id
    circulation := circ
    totalSupply := total
    remainingCount := remain
    remainingPercent := remainPercent.toFixed3
    price := x.price_usd.toNumber.round64
    marketCap := x.market_cap_usd.toNumber.round64
    oneHour := x.percent_change_1h.toNumber.round64
    oneDay := x.percent_change_24h.toNumber.round64
    sevenDay := x.percent_change_7d.toNumber.round64 }

/-- For total supply `t` and circulating supply `c`, none of the five operations that
lead to the remaining percentage rounds: each exact result is a binary64 value. -/
def Model.processData.exactSteps (t c : ℚ) : Prop :=
  binary64 (t - c) = JSNum.fin (t - c)
  ∧ binary64 (t - (t - c)) = JSNum.fin (t - (t - c))
  ∧ binary64 ((t - (t - c)) / t) = JSNum.fin ((t - (t - c)) / t)
  ∧ binary64 ((t - (t - c)) / t * 100) = JSNum.fin ((t - (t - c)) / t * 100)
  ∧ binary64 (100 - (t - (t - c)) / t * 100) = JSNum.fin (100 - (t - (t - c)) / t * 100)

/-- A record for the examples: nothing in circulation, so that the remaining count is the
total supply and the remaining percent is "100.000". -/
def fixtureCoin (id : Nat) (name : String) (totalSupply price : ℚ) : CoinData :=
  { id := id
    symbol := name
    name := name
    circulation := JSNum.fin 0
    totalSupply := JSNum.fin totalSupply
    remainingCount := JSNum.fin totalSupply
    remainingPercent := FixedStr.digits false 100000
    price := JSNum.fin price
    marketCap := JSNum.fin 0
    oneHour := JSNum.fin 0
    oneDay := JSNum.fin 0
    sevenDay := JSNum.fin 0 }

/-- A raw entry for the examples, with the three supply fields as given. -/
def fixtureEntry (id : String) (available total max : RawVal) : RawEntry :=
  { id := id
    symbol := id
    available_supply := available
    total_supply := total
    max_supply := max
    price_usd := RawVal.number (JSNum.fin 1)
    market_cap_usd := RawVal.number (JSNum.fin 1)
    percent_change_1h := RawVal.number (JSNum.fin 0)
    percent_change_24h := RawVal.number (JSNum.fin 0)
    percent_change_7d := RawVal.number (JSNum.fin 0) }

/-- A batch for the examples: the first entry has more coins in circulation (15) than
its total supply (10), the second has a max supply. -/
def fixtureBatch : List RawEntry :=
  [fixtureEntry "alpha" (RawVal.number (JSNum.fin 15)) (RawVal.number (JSNum.fin 10))
      RawVal.null,
   fixtureEntry "beta" (RawVal.number (JSNum.fin 5)) (RawVal.number (JSNum.fin 10))
      (RawVal.number (JSNum.fin 21))]

/-- An entry for the examples with total supply 21,000,000 and 10,565,625 coins in
circulation. -/
def fixtureRoundingEntry : RawEntry :=
  fixtureEntry "delta" (RawVal.number (JSNum.fin 10565625)) (RawVal.number (JSNum.fin 21000000))
    RawVal.null

/-- An entry for the examples with total supply 10 and 15 coins in circulation. -/
def fixtureOverIssuedEntry : RawEntry :=
  fixtureEntry "alpha" (RawVal.number (JSNum.fin 15)) (RawVal.number (JSNum.fin 10))
    RawVal.null

/-- A batch for the examples whose only entry has an available supply that does not
parse as a number. -/
def fixtureBadBatch : List RawEntry :=
  [fixtureEntry "gamma" (RawVal.number JSNum.nan) (RawVal.number (JSNum.fin 10)) RawVal.null]

/-! ## Numbers: order facts -/

theorem JSNum.le_transitive {a b c : JSNum} (hab : a.le b = true) (hbc : b.le c = true) :
    a.le c = true := by
  cases a <;> cases b <;> cases c <;> simp_all [JSNum.le]
  exact le_trans hab hbc

theorem JSNum.le_reflexive {a : JSNum} (ha : a ≠ JSNum.nan) : a.le a = true := by
  cases a <;> simp_all [JSNum.le]

theorem JSNum.le_antisymmetric {a b : JSNum} (hab : a.le b = true) (hba : b.le a = true) :
    a = b := by
  cases a <;> cases b <;> simp_all [JSNum.le]
  exact le_antisymm hab hba

theorem JSNum.ne_nan_of_le_left {a b : JSNum} (h : a.le b = true) : a ≠ JSNum.nan := by
  cases a <;> simp_all [JSNum.le]

theorem JSNum.ne_nan_of_le_right {a b : JSNum} (h : a.le b = true) : b ≠ JSNum.nan := by
  cases a <;> cases b <;> simp_all [JSNum.le]

theorem JSNum.le_of_isPos_sub {a b : JSNum} (h : (a.sub b).isPos = true) : b.le a = true := by
  cases a <;> cases b <;> simp_all [JSNum.le, JSNum.sub, JSNum.isPos]
  exact le_of_lt h

theorem JSNum.le_of_not_isPos_sub {a b : JSNum} (ha : a ≠ JSNum.nan) (hb : b ≠ JSNum.nan)
    (h : (a.sub b).isPos = false) : a.le b = true := by
  cases a <;> cases b <;> simp_all [JSNum.le, JSNum.sub, JSNum.isPos]

/-! ## The sort: permutation and order -/

theorem sortCompare_isPos {α : Type} (comparefn : α → α → JSNum) (x y : α) :
    (sortCompare comparefn x y).isPos = (comparefn x y).isPos := by
  unfold sortCompare
  cases h : comparefn x y <;> simp [JSNum.isPos]

theorem sortInsert_perm {α : Type} (comparefn : α → α → JSNum) (x : α) (l : List α) :
    (sortInsert comparefn x l).Perm (x :: l) := by
  induction l with
  | nil => simp [sortInsert]
  | cons y ys ih =>
    unfold sortInsert
    split
    · exact (List.Perm.cons y ih).trans (List.Perm.swap x y ys)
    · exact List.Perm.refl _

theorem arraySort_perm {α : Type} (comparefn : α → α → JSNum) (l : List α) :
    (arraySort comparefn l).Perm l := by
  induction l with
  | nil => simp [arraySort]
  | cons x xs ih =>
    unfold arraySort
    exact (sortInsert_perm comparefn x _).trans (List.Perm.cons x ih)

theorem sortInsert_pairwise {α : Type} (key : α → JSNum) (x : α) (l : List α)
    (hx : key x ≠ JSNum.nan) (hl : ∀ a ∈ l, key a ≠ JSNum.nan)
    (hs : l.Pairwise (fun a b => (key a).le (key b) = true)) :
    (sortInsert (fun a b => (key a).sub (key b)) x l).Pairwise
      (fun a b => (key a).le (key b) = true) := by
  induction l with
  | nil => simp [sortInsert]
  | cons y ys ih =>
    unfold sortInsert
    rw [sortCompare_isPos]
    rw [List.pairwise_cons] at hs
    split
    · next hpos =>
      rw [List.pairwise_cons]
      refine ⟨?_, ih (fun a ha => hl a (List.mem_cons_of_mem _ ha)) hs.2⟩
      intro z hz
      rcases List.mem_cons.mp ((sortInsert_perm _ x ys).subset hz) with hzx | hzy
      · subst hzx
        exact JSNum.le_of_isPos_sub hpos
      · exact hs.1 z hzy
    · next hneg =>
      have hxy : (key x).le (key y) = true :=
        JSNum.le_of_not_isPos_sub hx (hl y (List.mem_cons_self _ _)) (by simpa using hneg)
      rw [List.pairwise_cons]
      refine ⟨?_, List.pairwise_cons.mpr hs⟩
      intro z hz
      rcases List.mem_cons.mp hz with hzy | hzy
      · subst hzy
        exact hxy
      · exact JSNum.le_transitive hxy (hs.1 z hzy)

theorem arraySort_pairwise {α : Type} (key : α → JSNum) (l : List α)
    (hl : ∀ a ∈ l, key a ≠ JSNum.nan) :
    (arraySort (fun a b => (key a).sub (key b)) l).Pairwise
      (fun a b => (key a).le (key b) = true) := by
  induction l with
  | nil => simp [arraySort]
  | cons x xs ih =>
    unfold arraySort
    refine sortInsert_pairwise key x _ (hl x (List.mem_cons_self _ _)) ?_
      (ih (fun a ha => hl a (List.mem_cons_of_mem _ ha)))
    intro a ha
    exact hl a (List.mem_cons_of_mem _ ((arraySort_perm _ xs).subset ha))

/-- Two arrangements of the same records sort to the same sequence when the keys are
numbers and no two records share a key. -/
theorem arraySort_eq_of_perm {α : Type} (key : α → JSNum) {l₁ l₂ : List α}
    (hp : l₁.Perm l₂) (hnum : ∀ a ∈ l₂, key a ≠ JSNum.nan) (hnd : (l₂.map key).Nodup) :
    arraySort (fun a b => (key a).sub (key b)) l₁
      = arraySort (fun a b => (key a).sub (key b)) l₂ := by
  have hnum₁ : ∀ a ∈ l₁, key a ≠ JSNum.nan := fun a ha => hnum a (hp.subset ha)
  have hnd₁ : (l₁.map key).Nodup := ((hp.map key).nodup_iff).mpr hnd
  have strict : ∀ l : List α, (∀ a ∈ l, key a ≠ JSNum.nan) → (l.map key).Nodup →
      (arraySort (fun a b => (key a).sub (key b)) l).Pairwise
        (fun a b => (key a).le (key b) = true ∧ key a ≠ key b) := by
    intro l hl hn
    refine (arraySort_pairwise key l hl).and ?_
    have hn2 : ((arraySort (fun a b => (key a).sub (key b)) l).map key).Nodup :=
      (((arraySort_perm _ l).map key).nodup_iff).mpr hn
    exact List.pairwise_map.mp hn2
  haveI : IsAntisymm α (fun a b => (key a).le (key b) = true ∧ key a ≠ key b) :=
    ⟨fun a b hab hba => absurd (JSNum.le_antisymmetric hab.1 hba.1) hab.2⟩
  exact List.eq_of_perm_of_sorted
    (((arraySort_perm _ l₁).trans hp).trans (arraySort_perm _ l₂).symm)
    (strict l₁ hnum₁ hnd₁) (strict l₂ hnum hnd)

/-! ## The sort: stability and sorted input -/

theorem JSNum.isPos_sub_self (a : JSNum) : (a.sub a).isPos = false := by
  cases a <;> simp [JSNum.sub, JSNum.isPos]

theorem JSNum.not_isPos_sub_of_le {a b : JSNum} (h : a.le b = true) :
    (a.sub b).isPos = false := by
  cases a <;> cases b <;> simp_all [JSNum.le, JSNum.sub, JSNum.isPos]

/-- An insertion never moves a record past a record with the same key. -/
theorem sortInsert_filter_key {α : Type} (key : α → JSNum) (k : JSNum) (x : α) (l : List α) :
    (sortInsert (fun a b => (key a).sub (key b)) x l).filter (fun z => decide (key z = k))
      = (x :: l).filter (fun z => decide (key z = k)) := by
  induction l with
  | nil => simp [sortInsert]
  | cons y ys ih =>
    unfold sortInsert
    rw [sortCompare_isPos]
    split
    · next hpos =>
      by_cases hy : key y = k
      · by_cases hx : key x = k
        · rw [hx, ← hy, JSNum.isPos_sub_self] at hpos
          cases hpos
        · rw [List.filter_cons, ih]
          simp [List.filter_cons, hx, hy]
      · rw [List.filter_cons, ih]
        simp [List.filter_cons, hy]
    · rfl

/-- The sort is stable: the records with a given key keep their order. -/
theorem arraySort_filter_key {α : Type} (key : α → JSNum) (k : JSNum) (l : List α) :
    (arraySort (fun a b => (key a).sub (key b)) l).filter (fun z => decide (key z = k))
      = l.filter (fun z => decide (key z = k)) := by
  induction l with
  | nil => simp [arraySort]
  | cons x xs ih =>
    unfold arraySort
    rw [sortInsert_filter_key, List.filter_cons, ih, List.filter_cons]

/-- The sort leaves a sequence that is already in order as it is. -/
theorem arraySort_of_pairwise {α : Type} (key : α → JSNum) (l : List α)
    (hs : l.Pairwise (fun a b => (key a).le (key b) = true)) :
    arraySort (fun a b => (key a).sub (key b)) l = l := by
  induction l with
  | nil => rfl
  | cons x xs ih =>
    rw [List.pairwise_cons] at hs
    unfold arraySort
    rw [ih hs.2]
    cases xs with
    | nil => rfl
    | cons y ys =>
      unfold sortInsert
      rw [sortCompare_isPos, JSNum.not_isPos_sub_of_le (hs.1 y (List.mem_cons_self _ _))]
      rfl

/-! ## `Controller.filterFull`: what is displayed -/

theorem filterFull_coins (sort : String) (rank : Nat) (coins : List CoinData) :
    (Controller.filterFull sort rank coins).coins =
      match Controller.filterFull.storeKey sort with
      | some key => arraySort (fun a b => (key a).sub (key b)) coins
      | none => coins := by
  unfold Controller.filterFull Controller.filterFull.determine Controller.filterFull.storeKey
  split_ifs <;> rfl

theorem filterFull_promise (sort : String) (rank : Nat) (coins : List CoinData) :
    (Controller.filterFull sort rank coins).promise = PromiseState.fulfilled
      ((Controller.filterFull sort rank coins).coins.filter (fun x => decide (x.id ≤ rank))) := by
  unfold Controller.filterFull Controller.filterFull.determine
  split_ifs <;> rfl

theorem filterFull_coins_perm (sort : String) (rank : Nat) (coins : List CoinData) :
    (Controller.filterFull sort rank coins).coins.Perm coins := by
  rw [filterFull_coins]
  split
  · exact arraySort_perm _ coins
  · exact List.Perm.refl coins

theorem runQueries_perm (history : List (String × Nat)) (coins : List CoinData) :
    (Controller.runQueries history coins).Perm coins := by
  induction history generalizing coins with
  | nil => exact List.Perm.refl coins
  | cons q qs ih =>
    unfold Controller.runQueries
    exact (ih _).trans (filterFull_coins_perm q.1 q.2 coins)

/-- Claim C1 (the code departs from it): with the selection 'Low Price & Low Total
Supply' the display should receive only records with totalSupply at most 10,000,000, in
non-decreasing price order. On a store of three records with total supplies 20,000,000,
5,000,000 and 1,000,000 and prices 5, 9 and 10, `Controller.filterFull` hands over all
three records in total-supply order: the record with total supply 20,000,000 is among
them and the prices run 10, 9, 5. The composite
`Model.sortCheapestLowSupply` itself resolves with the filtered, price-ordered pair, but
its Promise is passed to `.then` where a function is expected, so its value is unused. -/
theorem filterFull_lowPriceLowSupply_unfiltered :
    (Controller.filterFull "Low Price & Low Total Supply" 10
        [fixtureCoin 0 "A" 20000000 5, fixtureCoin 1 "B" 5000000 9,
         fixtureCoin 2 "C" 1000000 10]).promise
      = PromiseState.fulfilled
        [fixtureCoin 2 "C" 1000000 10, fixtureCoin 1 "B" 5000000 9,
         fixtureCoin 0 "A" 20000000 5]
    ∧ (fixtureCoin 0 "A" 20000000 5).totalSupply.le (JSNum.fin 10000000) = false
    ∧ (fixtureCoin 2 "C" 1000000 10).price.le (fixtureCoin 1 "B" 5000000 9).price = false
    ∧ (Model.sortCheapestLowSupply
        [fixtureCoin 0 "A" 20000000 5, fixtureCoin 1 "B" 5000000 9,
         fixtureCoin 2 "C" 1000000 10]).promise
      = PromiseState.fulfilled [fixtureCoin 1 "B" 5000000 9, fixtureCoin 2 "C" 1000000 10] := by
  refine ⟨?_, ?_, ?_, ?_⟩ <;> decide!

/-- Claim C2: for every store and every rank cutoff `c`, `Controller.filterFull` with
the selection 'Lowest Price' hands the display a sequence that consists of exactly the
records of the store with rank at most `c`, each as often as the store holds it; when
the prices of the store are numbers, the sequence is in non-decreasing price order and
its first record has the lowest price of all the records shown. -/
theorem filterFull_lowestPrice (coins : List CoinData) (c : Nat) :
    ∃ shown : List CoinData,
      (Controller.filterFull "Lowest Price" c coins).promise = PromiseState.fulfilled shown
      ∧ shown.Perm (coins.filter (fun r => decide (r.id ≤ c)))
      ∧ ((∀ r ∈ coins, r.price ≠ JSNum.nan) →
          shown.Pairwise (fun a b => a.price.le b.price = true)
          ∧ ∀ first rest, shown = first :: rest →
              ∀ r ∈ shown, first.price.le r.price = true) := by
  have hcoins : (Controller.filterFull "Lowest Price" c coins).coins
      = arraySort (fun a b => a.price.sub b.price) coins := by
    rw [filterFull_coins]
    rfl
  refine ⟨_, by rw [filterFull_promise, hcoins], (arraySort_perm _ coins).filter _, ?_⟩
  intro hnum
  have hsorted : ((arraySort (fun a b => a.price.sub b.price) coins).filter
      (fun r => decide (r.id ≤ c))).Pairwise (fun a b => a.price.le b.price = true) :=
    (arraySort_pairwise (fun x : CoinData => x.price) coins hnum).filter _
  refine ⟨hsorted, ?_⟩
  intro first rest hshown r hr
  rw [hshown] at hsorted hr
  rcases List.mem_cons.mp hr with h | h
  · subst h
    refine JSNum.le_reflexive (hnum r ?_)
    have hmem : r ∈ (arraySort (fun a b => a.price.sub b.price) coins).filter
        (fun r => decide (r.id ≤ c)) := by
      rw [hshown]
      exact List.mem_cons_self _ _
    exact (arraySort_perm _ coins).subset (List.mem_filter.mp hmem).1
  · exact (List.pairwise_cons.mp hsorted).1 r h

theorem filterFull_lowestPrice_witness :
    (∀ r ∈ [fixtureCoin 0 "A" 20000000 5, fixtureCoin 1 "B" 5000000 3,
        fixtureCoin 2 "C" 1000000 4], r.price ≠ JSNum.nan)
    ∧ ∃ shown : List CoinData,
      (Controller.filterFull "Lowest Price" 1
        [fixtureCoin 0 "A" 20000000 5, fixtureCoin 1 "B" 5000000 3,
         fixtureCoin 2 "C" 1000000 4]).promise = PromiseState.fulfilled shown
      ∧ shown.Perm ([fixtureCoin 0 "A" 20000000 5, fixtureCoin 1 "B" 5000000 3,
          fixtureCoin 2 "C" 1000000 4].filter (fun r => decide (r.id ≤ 1)))
      ∧ shown.Pairwise (fun a b => a.price.le b.price = true) := by
  obtain ⟨shown, hshown, hperm, horder⟩ := filterFull_lowestPrice
    [fixtureCoin 0 "A" 20000000 5, fixtureCoin 1 "B" 5000000 3, fixtureCoin 2 "C" 1000000 4] 1
  exact ⟨by decide, shown, hshown, hperm, (horder (by decide)).1⟩

/-- Claim C3, as stated, fails: on a store of two records with equal prices, the
selection 'Lowest Price' displays them in ingestion order when it is the first query,
and in the opposite order when 'Lowest Total Supply' was queried before it, because that
query left the store itself reordered. -/
theorem filterFull_depends_on_earlier_queries :
    (Controller.filterFull "Lowest Price" 1
        [fixtureCoin 0 "A" 2 1, fixtureCoin 1 "B" 1 1]).promise
      = PromiseState.fulfilled [fixtureCoin 0 "A" 2 1, fixtureCoin 1 "B" 1 1]
    ∧ (Controller.filterFull "Lowest Price" 1
        (Controller.runQueries [("Lowest Total Supply", 1)]
          [fixtureCoin 0 "A" 2 1, fixtureCoin 1 "B" 1 1])).promise
      = PromiseState.fulfilled [fixtureCoin 1 "B" 1 1, fixtureCoin 0 "A" 2 1]
    ∧ (Controller.filterFull "Lowest Price" 1
        (Controller.runQueries [("Lowest Total Supply", 1)]
          [fixtureCoin 0 "A" 2 1, fixtureCoin 1 "B" 1 1])).promise
      ≠ (Controller.filterFull "Lowest Price" 1
        [fixtureCoin 0 "A" 2 1, fixtureCoin 1 "B" 1 1]).promise := by
  refine ⟨?_, ?_, ?_⟩ <;> decide!

/-- Claim C3, amended: whatever main-view queries ran on the snapshot before, the
sequence `Controller.filterFull` displays for a sort selection and a rank cutoff holds
the same records as on the fresh snapshot (it is a rearrangement of that sequence). When
the key by which the selection sorts the store takes numeric values on the records of
the snapshot, the records that tie on that key are displayed in the order in which the
earlier queries left them in the store, and the sequence is identical to the one on the
fresh snapshot when no two records tie. -/
theorem filterFull_after_queries (coins : List CoinData) (sort : String) (rank : Nat)
    (history : List (String × Nat)) :
    ∃ fresh later : List CoinData,
      (Controller.filterFull sort rank coins).promise = PromiseState.fulfilled fresh
      ∧ (Controller.filterFull sort rank (Controller.runQueries history coins)).promise
          = PromiseState.fulfilled later
      ∧ later.Perm fresh
      ∧ ∀ key, Controller.filterFull.storeKey sort = some key →
          (∀ r ∈ coins, key r ≠ JSNum.nan) →
          (∀ k : JSNum, later.filter (fun x => decide (key x = k))
            = ((Controller.runQueries history coins).filter
                (fun x => decide (x.id ≤ rank))).filter (fun x => decide (key x = k)))
          ∧ ((coins.map key).Nodup → later = fresh) := by
  refine ⟨_, _, filterFull_promise sort rank coins,
    filterFull_promise sort rank (Controller.runQueries history coins), ?_, ?_⟩
  · exact (((filterFull_coins_perm sort rank _).trans (runQueries_perm history coins)).trans
      (filterFull_coins_perm sort rank coins).symm).filter _
  · intro key hkey hnum
    refine ⟨?_, ?_⟩
    · intro k
      have comm : ∀ (p q : CoinData → Bool) (l : List CoinData),
          (l.filter q).filter p = (l.filter p).filter q := by
        intro p q l
        simp only [List.filter_filter]
        congr 1
        funext x
        exact Bool.and_comm _ _
      rw [filterFull_coins, hkey]
      simp only
      rw [comm (fun x => decide (key x = k)) (fun x => decide (x.id ≤ rank)),
        arraySort_filter_key key k,
        comm (fun x => decide (x.id ≤ rank)) (fun x => decide (key x = k))]
    · intro hnd
      rw [filterFull_coins, filterFull_coins, hkey]
      exact congrArg (List.filter (fun x => decide (x.id ≤ rank)))
        (arraySort_eq_of_perm key (runQueries_perm history coins) hnum hnd)

theorem filterFull_after_queries_witness :
    (Controller.filterFull "Lowest Price" 1
        (Controller.runQueries [("Lowest Total Supply", 1), ("Low Price & Low Total Supply", 0)]
          [fixtureCoin 0 "A" 2 3, fixtureCoin 1 "B" 1 4])).promise
      = (Controller.filterFull "Lowest Price" 1
        [fixtureCoin 0 "A" 2 3, fixtureCoin 1 "B" 1 4]).promise := by
  obtain ⟨fresh, later, hfresh, hlater, _, hsame⟩ :=
    filterFull_after_queries [fixtureCoin 0 "A" 2 3, fixtureCoin 1 "B" 1 4] "Lowest Price" 1
      [("Lowest Total Supply", 1), ("Low Price & Low Total Supply", 0)]
  rw [hfresh, hlater, (hsame (fun x => x.price) rfl (by decide)).2 (by decide!)]

/-- Claim C4, as stated, fails: after `Model.sortPrice` on a store that lists a record
priced 5 before a record priced 3, `Model.coins` lists them in the other order. -/
theorem sortPrice_changes_store :
    (Model.sortPrice [fixtureCoin 0 "A" 20000000 5, fixtureCoin 1 "B" 5000000 3]).coins
      = [fixtureCoin 1 "B" 5000000 3, fixtureCoin 0 "A" 20000000 5]
    ∧ (Model.sortPrice [fixtureCoin 0 "A" 20000000 5, fixtureCoin 1 "B" 5000000 3]).coins
      ≠ [fixtureCoin 0 "A" 20000000 5, fixtureCoin 1 "B" 5000000 3] := by
  refine ⟨?_, ?_⟩ <;> decide!

/-- Claim C4, amended: `Model.sortPrice` sorts the Collection Store itself. After the
call `Model.coins` holds the same records, each as often as before, possibly in another
order; the resolved result is that very sequence and not a new one; and when the prices
are numbers the store is then in non-decreasing price order. -/
theorem sortPrice_sorts_store (coins : List CoinData) :
    (Model.sortPrice coins).coins.Perm coins
    ∧ (Model.sortPrice coins).promise = PromiseState.fulfilled (Model.sortPrice coins).coins
    ∧ ((∀ r ∈ coins, r.price ≠ JSNum.nan) →
        (Model.sortPrice coins).coins.Pairwise (fun a b => a.price.le b.price = true)) :=
  ⟨arraySort_perm _ coins, rfl, fun hnum => arraySort_pairwise (fun x : CoinData => x.price) coins hnum⟩

theorem sortPrice_sorts_store_witness :
    (∀ r ∈ [fixtureCoin 0 "A" 20000000 5, fixtureCoin 1 "B" 5000000 3], r.price ≠ JSNum.nan)
    ∧ (Model.sortPrice [fixtureCoin 0 "A" 20000000 5, fixtureCoin 1 "B" 5000000 3]).coins.Pairwise
        (fun a b => a.price.le b.price = true) :=
  ⟨by decide, (sortPrice_sorts_store _).2.2 (by decide)⟩

/-! ## The lookup and the band filter -/

theorem getCoinByName_loop (coin : String) (len : Nat) :
    ∀ (xs : List CoinData) (i : Nat) (st : Utility.GetCoinByNameState),
      i + xs.length = len → st.promise = PromiseState.pending →
      (Utility.getCoinByName.loop coin len i xs st).promise =
        match xs with
        | [] => PromiseState.pending
        | _ :: _ => PromiseState.fulfilled ((lastNamed coin xs).or st.target) := by
  intro xs
  induction xs with
  | nil =>
    intro i st _ hp
    simpa [Utility.getCoinByName.loop] using hp
  | cons x xs ih =>
    intro i st hlen hp
    unfold Utility.getCoinByName.loop
    cases xs with
    | nil =>
      have hi : i = len - 1 := by simp at hlen; omega
      simp [Utility.getCoinByName.loop, hi, hp, PromiseState.resolve, lastNamed]
      by_cases hx : x.name = coin <;> simp [hx]
    | cons y ys =>
      have hi : i ≠ len - 1 := by simp at hlen; omega
      have := ih (i + 1) ⟨if x.name = coin then some x else st.target, st.promise⟩
        (by simp at hlen ⊢; omega) hp
      simp only [hi, if_false]
      rw [this]
      simp only [lastNamed, List.reverse_cons, List.find?_append, List.append_assoc]
      cases hfy : List.find? (fun x => decide (x.name = coin)) ys.reverse <;>
        by_cases hy : y.name = coin <;> by_cases hx : x.name = coin <;> simp [hx, hy]

theorem getCoinByName_nil (coin : String) :
    Utility.getCoinByName coin [] = PromiseState.pending := rfl

theorem getCoinByName_of_ne_nil (coin : String) (coins : List CoinData) (h : coins ≠ []) :
    Utility.getCoinByName coin coins = PromiseState.fulfilled (lastNamed coin coins) := by
  unfold Utility.getCoinByName
  rw [getCoinByName_loop coin coins.length coins 0 _ (by simp) rfl]
  cases coins with
  | nil => exact absurd rfl h
  | cons x xs => simp

theorem lastNamed_eq_none (coin : String) (coins : List CoinData) :
    lastNamed coin coins = none ↔ ∀ r ∈ coins, r.name ≠ coin := by
  simp [lastNamed]

theorem lastNamed_eq_some {coin : String} {coins : List CoinData} {r : CoinData}
    (h : lastNamed coin coins = some r) :
    r.name = coin ∧ ∃ pre post, coins = pre ++ r :: post ∧ ∀ x ∈ post, x.name ≠ coin := by
  unfold lastNamed at h
  obtain ⟨hr, as, bs, hrev, has⟩ := List.find?_eq_some.mp h
  refine ⟨by simpa using hr, bs.reverse, as.reverse, ?_, ?_⟩
  · have := congrArg List.reverse hrev
    simpa using this
  · intro x hx
    simpa using has x (List.mem_reverse.mp hx)

theorem lastNamed_isSome {coin : String} {coins : List CoinData}
    (h : ∃ r ∈ coins, r.name = coin) : ∃ r, lastNamed coin coins = some r := by
  cases hl : lastNamed coin coins with
  | none =>
    obtain ⟨r, hr, hname⟩ := h
    exact absurd hname ((lastNamed_eq_none coin coins).mp hl r hr)
  | some r => exact ⟨r, rfl⟩

theorem getCoinsByMinMax_loop (min max : JSNum) (len : Nat) :
    ∀ (xs : List CoinData) (i : Nat) (st : Utility.GetCoinsByMinMaxState),
      i + xs.length = len → st.promise = PromiseState.pending →
      (Utility.getCoinsByMinMax.loop min max len i xs st).promise =
        match xs with
        | [] => PromiseState.pending
        | _ :: _ => PromiseState.fulfilled (st.relevantCoins ++
            xs.filter (fun x => x.totalSupply.ge min && x.totalSupply.le max)) := by
  intro xs
  induction xs with
  | nil =>
    intro i st _ hp
    simpa [Utility.getCoinsByMinMax.loop] using hp
  | cons x xs ih =>
    intro i st hlen hp
    unfold Utility.getCoinsByMinMax.loop
    cases xs with
    | nil =>
      have hi : i = len - 1 := by simp at hlen; omega
      simp only [Utility.getCoinsByMinMax.loop, hi, hp, PromiseState.resolve, if_true]
      by_cases hx : (x.totalSupply.ge min && x.totalSupply.le max) = true <;>
        simp [List.filter, hx]
    | cons y ys =>
      have hi : i ≠ len - 1 := by simp at hlen; omega
      have := ih (i + 1)
        ⟨if (x.totalSupply.ge min && x.totalSupply.le max) = true then st.relevantCoins ++ [x]
          else st.relevantCoins, st.promise⟩ (by simp at hlen ⊢; omega) hp
      simp only [hi, if_false]
      rw [this]
      by_cases hx : (x.totalSupply.ge min && x.totalSupply.le max) = true
      · simp [List.filter_cons, hx]
      · simp [List.filter_cons, hx]

theorem getCoinsByMinMax_of_ne_nil (c : CoinData) (coins : List CoinData) (h : coins ≠ []) :
    Utility.getCoinsByMinMax (some c) coins = PromiseState.fulfilled
      (coins.filter (fun x =>
        x.totalSupply.ge (Utility.getCoinsByMinMax.minMax c.totalSupply).1
          && x.totalSupply.le (Utility.getCoinsByMinMax.minMax c.totalSupply).2)) := by
  unfold Utility.getCoinsByMinMax
  simp only
  rw [getCoinsByMinMax_loop _ _ coins.length coins 0 _ (by simp) rfl]
  cases coins with
  | nil => exact absurd rfl h
  | cons x xs => simp

theorem minMax_eq_specSupplyBand (s : JSNum) :
    Utility.getCoinsByMinMax.minMax s = specSupplyBand s := by
  unfold Utility.getCoinsByMinMax.minMax specSupplyBand specHalfWidth specStepTable
  by_cases h1 : s.le (JSNum.fin 16000000) = true
  · simp [List.find?, h1]
  by_cases h2 : s.le (JSNum.fin 60000000) = true
  · simp [List.find?, h1, h2]
  by_cases h3 : s.le (JSNum.fin 100000000) = true
  · simp [List.find?, h1, h2, h3]
  by_cases h4 : s.le (JSNum.fin 500000000) = true
  · simp [List.find?, h1, h2, h3, h4]
  by_cases h5 : s.le (JSNum.fin 1000000000) = true
  · simp [List.find?, h1, h2, h3, h4, h5]
  · simp [List.find?, h1, h2, h3, h4, h5]

theorem getRelatedCoins_of_lastNamed_none {coin : String} {coins : List CoinData}
    (h : lastNamed coin coins = none) : Model.getRelatedCoins coin coins = PromiseState.pending := by
  unfold Model.getRelatedCoins
  cases coins with
  | nil => rfl
  | cons x xs =>
    rw [getCoinByName_of_ne_nil coin (x :: xs) (List.cons_ne_nil x xs), h]
    rfl

theorem getRelatedCoins_of_lastNamed_some {coin : String} {coins : List CoinData}
    {r : CoinData} (h : lastNamed coin coins = some r) :
    Model.getRelatedCoins coin coins = PromiseState.fulfilled
      (some r, arraySort (fun a b => a.totalSupply.sub b.totalSupply)
        (coins.filter (fun x =>
          x.totalSupply.ge (Utility.getCoinsByMinMax.minMax r.totalSupply).1
            && x.totalSupply.le (Utility.getCoinsByMinMax.minMax r.totalSupply).2))) := by
  unfold Model.getRelatedCoins
  cases coins with
  | nil => simp [lastNamed] at h
  | cons x xs =>
    rw [getCoinByName_of_ne_nil coin (x :: xs) (List.cons_ne_nil x xs), h]
    simp only [PromiseState.andThen]
    rw [getCoinsByMinMax_of_ne_nil r (x :: xs) (List.cons_ne_nil x xs)]
    rfl

/-- Claim C5: for every store that holds a record named `targetName`,
`Model.getRelatedCoins` resolves with a pair (target, related): the target is a record of
the store with that name, and related consists of exactly the records of the store whose
totalSupply lies in the inclusive supply band of the target's totalSupply, each as often
as the store holds it, in non-decreasing totalSupply order. For a target with
totalSupply 50,000,000 every related record has totalSupply in
[47,000,000, 53,000,000]. -/
theorem getRelatedCoins_band (coins : List CoinData) (targetName : String)
    (h : ∃ r ∈ coins, r.name = targetName) :
    ∃ (target : CoinData) (related : List CoinData),
      Model.getRelatedCoins targetName coins = PromiseState.fulfilled (some target, related)
      ∧ target ∈ coins ∧ target.name = targetName
      ∧ related.Perm (coins.filter (fun x =>
          (specSupplyBand target.totalSupply).1.le x.totalSupply
            && x.totalSupply.le (specSupplyBand target.totalSupply).2))
      ∧ related.Pairwise (fun a b => a.totalSupply.le b.totalSupply = true)
      ∧ (target.totalSupply = JSNum.fin 50000000 → ∀ x ∈ related,
          (JSNum.fin 47000000).le x.totalSupply = true
            ∧ x.totalSupply.le (JSNum.fin 53000000) = true) := by
  obtain ⟨target, htarget⟩ := lastNamed_isSome h
  obtain ⟨hname, pre, post, hsplit, _⟩ := lastNamed_eq_some htarget
  have hperm := arraySort_perm (fun a b : CoinData => a.totalSupply.sub b.totalSupply)
    (coins.filter (fun x =>
      x.totalSupply.ge (Utility.getCoinsByMinMax.minMax target.totalSupply).1
        && x.totalSupply.le (Utility.getCoinsByMinMax.minMax target.totalSupply).2))
  have hband : ∀ x ∈ arraySort (fun a b : CoinData => a.totalSupply.sub b.totalSupply)
      (coins.filter (fun x =>
        x.totalSupply.ge (Utility.getCoinsByMinMax.minMax target.totalSupply).1
          && x.totalSupply.le (Utility.getCoinsByMinMax.minMax target.totalSupply).2)),
      (specSupplyBand target.totalSupply).1.le x.totalSupply = true
        ∧ x.totalSupply.le (specSupplyBand target.totalSupply).2 = true := by
    intro x hx
    have := (List.mem_filter.mp (hperm.subset hx)).2
    rw [minMax_eq_specSupplyBand] at this
    simpa [JSNum.ge] using this
  refine ⟨target, _, getRelatedCoins_of_lastNamed_some htarget, ?_, hname, ?_, ?_, ?_⟩
  · rw [hsplit]
    simp
  · rw [← minMax_eq_specSupplyBand]
    exact hperm
  · refine arraySort_pairwise (fun x : CoinData => x.totalSupply) _ ?_
    intro a ha
    have := (List.mem_filter.mp ha).2
    simp only [Bool.and_eq_true] at this
    exact JSNum.ne_nan_of_le_left this.2
  · intro h50 x hx
    have := hband x hx
    rw [← minMax_eq_specSupplyBand, h50] at this
    have hmm : Utility.getCoinsByMinMax.minMax (JSNum.fin 50000000)
        = (JSNum.fin 47000000, JSNum.fin 53000000) := by
      simp [Utility.getCoinsByMinMax.minMax, JSNum.le, JSNum.sub, JSNum.add]
      norm_num
    rw [hmm] at this
    exact this

theorem getRelatedCoins_band_witness :
    (∃ r ∈ [fixtureCoin 0 "A" 50000000 5, fixtureCoin 1 "B" 47000000 3,
        fixtureCoin 2 "C" 60000000 4], r.name = "A")
    ∧ ∃ (target : CoinData) (related : List CoinData),
      Model.getRelatedCoins "A" [fixtureCoin 0 "A" 50000000 5, fixtureCoin 1 "B" 47000000 3,
        fixtureCoin 2 "C" 60000000 4] = PromiseState.fulfilled (some target, related)
      ∧ target ∈ [fixtureCoin 0 "A" 50000000 5, fixtureCoin 1 "B" 47000000 3,
        fixtureCoin 2 "C" 60000000 4] ∧ target.name = "A"
      ∧ related.Perm ([fixtureCoin 0 "A" 50000000 5, fixtureCoin 1 "B" 47000000 3,
          fixtureCoin 2 "C" 60000000 4].filter (fun x =>
          (specSupplyBand target.totalSupply).1.le x.totalSupply
            && x.totalSupply.le (specSupplyBand target.totalSupply).2))
      ∧ related.Pairwise (fun a b => a.totalSupply.le b.totalSupply = true)
      ∧ (target.totalSupply = JSNum.fin 50000000 → ∀ x ∈ related,
          (JSNum.fin 47000000).le x.totalSupply = true
            ∧ x.totalSupply.le (JSNum.fin 53000000) = true) :=
  ⟨⟨fixtureCoin 0 "A" 50000000 5, by decide, rfl⟩,
    getRelatedCoins_band _ "A" ⟨fixtureCoin 0 "A" 50000000 5, by decide, rfl⟩⟩

/-- Claim C6, as stated, fails: on a store that holds no record named "GHOST" the
related view does not fail with an error. The Promise of `Model.getRelatedCoins` stays
pending, so the caller receives no outcome at all; it is not rejected. -/
theorem getRelatedCoins_no_match_pending :
    (∀ r ∈ [fixtureCoin 0 "A" 50000000 5], r.name ≠ "GHOST")
    ∧ Model.getRelatedCoins "GHOST" [fixtureCoin 0 "A" 50000000 5] = PromiseState.pending
    ∧ Model.getRelatedCoins "GHOST" [fixtureCoin 0 "A" 50000000 5]
        ≠ PromiseState.rejected Rejection.typeError := by
  refine ⟨?_, ?_, ?_⟩ <;> decide

/-- Claim C6, amended: for every store that is not empty and every `targetName`,
`Model.getRelatedCoins` produces a pair if and only if some record of the store is named
`targetName`. When no record has that name the lookup resolves with `undefined`, and the
Promise of the related view is never settled, so that the caller gets no outcome; in no
case is that Promise rejected. -/
theorem getRelatedCoins_outcome (coins : List CoinData) (targetName : String)
    (hne : coins ≠ []) :
    ((∃ r ∈ coins, r.name = targetName) ↔
        ∃ pair, Model.getRelatedCoins targetName coins = PromiseState.fulfilled pair)
    ∧ ((¬ ∃ r ∈ coins, r.name = targetName) ↔
        Model.getRelatedCoins targetName coins = PromiseState.pending)
    ∧ ((¬ ∃ r ∈ coins, r.name = targetName) →
        Utility.getCoinByName targetName coins = PromiseState.fulfilled none)
    ∧ ∀ e, Model.getRelatedCoins targetName coins ≠ PromiseState.rejected e := by
  cases hl : lastNamed targetName coins with
  | none =>
    have hnone : ¬ ∃ r ∈ coins, r.name = targetName := by
      rintro ⟨r, hr, hname⟩
      exact (lastNamed_eq_none targetName coins).mp hl r hr hname
    rw [getRelatedCoins_of_lastNamed_none hl]
    refine ⟨⟨fun h => absurd h hnone, ?_⟩, ⟨fun _ => rfl, fun _ => hnone⟩, ?_, ?_⟩
    · rintro ⟨pair, hpair⟩
      cases hpair
    · intro _
      rw [getCoinByName_of_ne_nil targetName coins hne, hl]
    · intro e he
      cases he
  | some r =>
    obtain ⟨hname, pre, post, hsplit, _⟩ := lastNamed_eq_some hl
    have hsome : ∃ r ∈ coins, r.name = targetName := ⟨r, by rw [hsplit]; simp, hname⟩
    rw [getRelatedCoins_of_lastNamed_some hl]
    refine ⟨⟨fun _ => ⟨_, rfl⟩, fun _ => hsome⟩, ⟨fun h => absurd hsome h, ?_⟩, ?_, ?_⟩
    · intro he
      cases he
    · intro h
      exact absurd hsome h
    · intro e he
      cases he

theorem getRelatedCoins_outcome_witness :
    [fixtureCoin 0 "A" 50000000 5, fixtureCoin 1 "B" 47000000 3] ≠ []
    ∧ ∃ pair, Model.getRelatedCoins "B"
        [fixtureCoin 0 "A" 50000000 5, fixtureCoin 1 "B" 47000000 3]
      = PromiseState.fulfilled pair :=
  ⟨List.cons_ne_nil _ _,
    (getRelatedCoins_outcome [fixtureCoin 0 "A" 50000000 5, fixtureCoin 1 "B" 47000000 3] "B"
      (List.cons_ne_nil _ _)).1.mp ⟨fixtureCoin 1 "B" 47000000 3, by decide, rfl⟩⟩

/-- Claim C7, as stated, fails: in a sequence with two records named "A",
`Utility.getCoinByName` resolves with the second one, while the first record with that
name is the one at the head. -/
theorem getCoinByName_not_first :
    Utility.getCoinByName "A" [fixtureCoin 0 "A" 1 1, fixtureCoin 1 "A" 2 2]
      = PromiseState.fulfilled (some (fixtureCoin 1 "A" 2 2))
    ∧ [fixtureCoin 0 "A" 1 1, fixtureCoin 1 "A" 2 2].find? (fun x => decide (x.name = "A"))
      = some (fixtureCoin 0 "A" 1 1)
    ∧ fixtureCoin 1 "A" 2 2 ≠ fixtureCoin 0 "A" 1 1 := by
  refine ⟨?_, ?_, ?_⟩ <;> decide

/-- Claim C7, amended: for every sequence of records and every name,
`Utility.getCoinByName` resolves with the last record of the sequence (highest position)
whose name equals the given string exactly, whenever such a record exists. -/
theorem getCoinByName_last (coins : List CoinData) (name : String)
    (h : ∃ r ∈ coins, r.name = name) :
    ∃ (pre : List CoinData) (r : CoinData) (post : List CoinData),
      coins = pre ++ r :: post ∧ r.name = name ∧ (∀ x ∈ post, x.name ≠ name)
      ∧ Utility.getCoinByName name coins = PromiseState.fulfilled (some r) := by
  obtain ⟨r, hr⟩ := lastNamed_isSome h
  obtain ⟨hname, pre, post, hsplit, hpost⟩ := lastNamed_eq_some hr
  refine ⟨pre, r, post, hsplit, hname, hpost, ?_⟩
  rw [getCoinByName_of_ne_nil name coins (by rw [hsplit]; simp), hr]

theorem getCoinByName_last_witness :
    (∃ r ∈ [fixtureCoin 0 "A" 1 1, fixtureCoin 1 "B" 3 3, fixtureCoin 2 "A" 2 2], r.name = "A")
    ∧ ∃ (pre : List CoinData) (r : CoinData) (post : List CoinData),
      [fixtureCoin 0 "A" 1 1, fixtureCoin 1 "B" 3 3, fixtureCoin 2 "A" 2 2] = pre ++ r :: post
      ∧ r.name = "A" ∧ (∀ x ∈ post, x.name ≠ "A")
      ∧ Utility.getCoinByName "A"
          [fixtureCoin 0 "A" 1 1, fixtureCoin 1 "B" 3 3, fixtureCoin 2 "A" 2 2]
        = PromiseState.fulfilled (some r) :=
  ⟨⟨fixtureCoin 0 "A" 1 1, by decide, rfl⟩,
    getCoinByName_last _ "A" ⟨fixtureCoin 0 "A" 1 1, by decide, rfl⟩⟩

/-- Claim C8: for every totalSupply `s`, the pair (min, max) computed in
`Utility.getCoinsByMinMax` is (s - h, s + h), where h is the half-width of the first row
of the step table whose threshold is at least `s`, and 500,000,000 when there is no such
row. In particular 16,000,000 gives (15,000,000, 17,000,000) and 16,000,001 gives
(13,000,001, 19,000,001). -/
theorem minMax_step_table (s : JSNum) :
    Utility.getCoinsByMinMax.minMax s
      = (s.sub (JSNum.fin (specHalfWidth s)), s.add (JSNum.fin (specHalfWidth s)))
    ∧ Utility.getCoinsByMinMax.minMax (JSNum.fin 16000000)
      = (JSNum.fin 15000000, JSNum.fin 17000000)
    ∧ Utility.getCoinsByMinMax.minMax (JSNum.fin 16000001)
      = (JSNum.fin 13000001, JSNum.fin 19000001) := by
  refine ⟨minMax_eq_specSupplyBand s, ?_, ?_⟩ <;> decide!

/-! ## Record derivation -/

theorem processData_loop_coins (toUpperCase : String → String) (len : Nat) :
    ∀ (xs : List RawEntry) (i : Nat) (st : Model.ProcessState),
      (Model.processData.loop toUpperCase len i xs st).coins
        = st.coins ++ derivedFrom toUpperCase i xs := by
  intro xs
  induction xs with
  | nil =>
    intro i st
    simp [Model.processData.loop, derivedFrom]
  | cons x xs ih =>
    intro i st
    unfold Model.processData.loop
    simp only [ih, derivedFrom, List.append_assoc, List.singleton_append]

theorem processData_coins (toUpperCase : String → String) (data : List RawEntry)
    (coins : List CoinData) :
    (Model.processData toUpperCase data coins).coins = coins ++ derivedFrom toUpperCase 0 data :=
  processData_loop_coins toUpperCase data.length data 0 _

theorem derivedFrom_getElem? (toUpperCase : String → String) :
    ∀ (xs : List RawEntry) (k i : Nat) (x : RawEntry), xs[i]? = some x →
      (derivedFrom toUpperCase k xs)[i]?
        = some (Model.processData.coinData toUpperCase x (k + i)) := by
  intro xs
  induction xs with
  | nil =>
    intro k i x h
    simp at h
  | cons y ys ih =>
    intro k i x h
    cases i with
    | zero =>
      simp at h
      simp [derivedFrom, h]
    | succ j =>
      simp at h
      simp only [derivedFrom, List.getElem?_cons_succ]
      rw [ih (k + 1) j x h]
      congr 2
      omega

/-- The record that `Model.processData` derives from the entry at index `i` of the batch
is stored `i` places after the records the store held before. -/
theorem processData_getElem? (toUpperCase : String → String) (data : List RawEntry)
    (coins : List CoinData) (i : Nat) (x : RawEntry) (hx : data[i]? = some x) :
    (Model.processData toUpperCase data coins).coins[coins.length + i]?
      = some (Model.processData.coinData toUpperCase x i) := by
  rw [processData_coins, List.getElem?_append_right (Nat.le_add_right _ _)]
  simp only [Nat.add_sub_cancel_left]
  rw [derivedFrom_getElem? toUpperCase data 0 i x hx, Nat.zero_add]

theorem coinData_remainingPercent (toUpperCase : String → String) (x : RawEntry) (i : Nat) :
    (Model.processData.coinData toUpperCase x i).remainingPercent
      = JSNum.toFixed3 ((JSNum.fin 100).sub
          ((((Model.processData.coinData toUpperCase x i).totalSupply.sub
              ((Model.processData.coinData toUpperCase x i).totalSupply.sub
                (Model.processData.coinData toUpperCase x i).circulation)).div
            (Model.processData.coinData toUpperCase x i).totalSupply).mul (JSNum.fin 100))) :=
  rfl

/-- Claim C9: for every raw ticker entry of a batch, the totalSupply of the record that
`Model.processData` derives from it and stores is the numeric value of the raw
total_supply field when max_supply is null, and the numeric value of the raw max_supply
field otherwise. -/
theorem processData_totalSupply (toUpperCase : String → String) (data : List RawEntry)
    (coins : List CoinData) (i : Nat) (x : RawEntry) (hx : data[i]? = some x) :
    ∃ r : CoinData,
      (Model.processData toUpperCase data coins).coins[coins.length + i]? = some r
      ∧ r = Model.processData.coinData toUpperCase x i
      ∧ (x.max_supply = RawVal.null → r.totalSupply = x.total_supply.toNumber)
      ∧ (x.max_supply ≠ RawVal.null → r.totalSupply = x.max_supply.toNumber) := by
  refine ⟨_, processData_getElem? toUpperCase data coins i x hx, rfl, ?_, ?_⟩
  · intro hnull
    simp [Model.processData.coinData, hnull]
  · intro hnull
    simp [Model.processData.coinData, hnull]

theorem processData_totalSupply_witness :
    [fixtureEntry "alpha" (RawVal.number (JSNum.fin 5)) (RawVal.number (JSNum.fin 10))
        RawVal.null,
      fixtureEntry "beta" (RawVal.number (JSNum.fin 5)) (RawVal.number (JSNum.fin 10))
        (RawVal.number (JSNum.fin 21))][1]?
      = some (fixtureEntry "beta" (RawVal.number (JSNum.fin 5)) (RawVal.number (JSNum.fin 10))
        (RawVal.number (JSNum.fin 21)))
    ∧ ∃ r : CoinData,
      (Model.processData String.toUpper
        [fixtureEntry "alpha" (RawVal.number (JSNum.fin 5)) (RawVal.number (JSNum.fin 10))
          RawVal.null,
        fixtureEntry "beta" (RawVal.number (JSNum.fin 5)) (RawVal.number (JSNum.fin 10))
          (RawVal.number (JSNum.fin 21))] []).coins[([] : List CoinData).length + 1]? = some r
      ∧ r = Model.processData.coinData String.toUpper
          (fixtureEntry "beta" (RawVal.number (JSNum.fin 5)) (RawVal.number (JSNum.fin 10))
            (RawVal.number (JSNum.fin 21))) 1
      ∧ ((fixtureEntry "beta" (RawVal.number (JSNum.fin 5)) (RawVal.number (JSNum.fin 10))
            (RawVal.number (JSNum.fin 21))).max_supply = RawVal.null →
          r.totalSupply = (fixtureEntry "beta" (RawVal.number (JSNum.fin 5))
            (RawVal.number (JSNum.fin 10)) (RawVal.number (JSNum.fin 21))).total_supply.toNumber)
      ∧ ((fixtureEntry "beta" (RawVal.number (JSNum.fin 5)) (RawVal.number (JSNum.fin 10))
            (RawVal.number (JSNum.fin 21))).max_supply ≠ RawVal.null →
          r.totalSupply = (fixtureEntry "beta" (RawVal.number (JSNum.fin 5))
            (RawVal.number (JSNum.fin 10)) (RawVal.number (JSNum.fin 21))).max_supply.toNumber) :=
  ⟨rfl, processData_totalSupply String.toUpper _ [] 1 _ rfl⟩

theorem toFixed3_hundred :
    JSNum.toFixed3 (JSNum.fin 100) = FixedStr.digits false 100000 := by
  decide!

theorem toFixed3_zero : JSNum.toFixed3 (JSNum.fin 0) = FixedStr.digits false 0 := by
  decide!

/-- Claim C10, as stated, fails: for a raw entry with available supply 0, total supply 0
and no max supply, the derived record has circulatingSupply = 0 = totalSupply, and its
remainingPercent is the string "NaN", neither "100.000" nor "0.000". -/
theorem remainingPercent_nan_at_zero_total :
    (Model.processData String.toUpper
        [fixtureEntry "zero" (RawVal.number (JSNum.fin 0)) (RawVal.number (JSNum.fin 0))
          RawVal.null] []).coins
      = [Model.processData.coinData String.toUpper
          (fixtureEntry "zero" (RawVal.number (JSNum.fin 0)) (RawVal.number (JSNum.fin 0))
            RawVal.null) 0]
    ∧ (Model.processData.coinData String.toUpper
        (fixtureEntry "zero" (RawVal.number (JSNum.fin 0)) (RawVal.number (JSNum.fin 0))
          RawVal.null) 0).circulation = JSNum.fin 0
    ∧ (Model.processData.coinData String.toUpper
        (fixtureEntry "zero" (RawVal.number (JSNum.fin 0)) (RawVal.number (JSNum.fin 0))
          RawVal.null) 0).totalSupply = JSNum.fin 0
    ∧ (Model.processData.coinData String.toUpper
        (fixtureEntry "zero" (RawVal.number (JSNum.fin 0)) (RawVal.number (JSNum.fin 0))
          RawVal.null) 0).remainingPercent = FixedStr.nan
    ∧ FixedStr.nan ≠ FixedStr.digits false 100000
    ∧ FixedStr.nan ≠ FixedStr.digits false 0 := by
  refine ⟨?_, ?_, ?_, ?_, ?_, ?_⟩ <;> decide!

/-- Claim C10, amended: for every raw ticker entry of a batch whose derived totalSupply
is a finite number other than zero, the record `Model.processData` derives and stores
has remainingPercent "100.000" when its circulatingSupply is 0, and "0.000" when its
circulatingSupply equals its totalSupply. -/
theorem processData_remainingPercent (toUpperCase : String → String) (data : List RawEntry)
    (coins : List CoinData) (i : Nat) (x : RawEntry) (t : ℚ) (hx : data[i]? = some x)
    (ht : (Model.processData.coinData toUpperCase x i).totalSupply = JSNum.fin t)
    (ht0 : t ≠ 0) :
    ∃ r : CoinData,
      (Model.processData toUpperCase data coins).coins[coins.length + i]? = some r
      ∧ (r.circulation = JSNum.fin 0 →
          r.remainingPercent = FixedStr.digits false 100000
            ∧ r.remainingPercent.text = some "100.000")
      ∧ (r.circulation = r.totalSupply →
          r.remainingPercent = FixedStr.digits false 0
            ∧ r.remainingPercent.text = some "0.000") := by
  refine ⟨_, processData_getElem? toUpperCase data coins i x hx, ?_, ?_⟩
  · intro hc
    have h : (Model.processData.coinData toUpperCase x i).remainingPercent
        = FixedStr.digits false 100000 := by
      rw [coinData_remainingPercent, ht, hc]
      simp [JSNum.sub, JSNum.div, JSNum.mul, ht0]
      exact toFixed3_hundred
    rw [h]
    exact ⟨rfl, by decide⟩
  · intro hc
    have h : (Model.processData.coinData toUpperCase x i).remainingPercent
        = FixedStr.digits false 0 := by
      rw [coinData_remainingPercent, hc, ht]
      simp [JSNum.sub, JSNum.div, JSNum.mul, ht0]
      exact toFixed3_zero
    rw [h]
    exact ⟨rfl, by decide⟩

theorem processData_remainingPercent_witness :
    ∃ r : CoinData,
      (Model.processData String.toUpper
        [fixtureEntry "alpha" (RawVal.number (JSNum.fin 0)) (RawVal.number (JSNum.fin 10))
          RawVal.null] []).coins[([] : List CoinData).length + 0]? = some r
      ∧ (r.circulation = JSNum.fin 0 →
          r.remainingPercent = FixedStr.digits false 100000
            ∧ r.remainingPercent.text = some "100.000")
      ∧ (r.circulation = r.totalSupply →
          r.remainingPercent = FixedStr.digits false 0
            ∧ r.remainingPercent.text = some "0.000") :=
  processData_remainingPercent String.toUpper
    [fixtureEntry "alpha" (RawVal.number (JSNum.fin 0)) (RawVal.number (JSNum.fin 10))
      RawVal.null] [] 0 _ 10 rfl rfl (by norm_num)

/-! ## Record derivation in binary64: remaining supply and remaining percent -/

/-- For a finite number below `10^21` in magnitude, `toFixed(3)` prints the count `n` of
thousandths nearest to the magnitude, the larger one on a tie, after the sign. -/
theorem toFixed3_nearest (q : ℚ) (hq : (if q < 0 then -q else q) < (10 : ℚ) ^ 21) :
    ∃ n : Nat, JSNum.toFixed3 (JSNum.fin q) = FixedStr.digits (decide (q < 0)) n
      ∧ (n : ℚ) / 1000 - 1 / 2000 ≤ (if q < 0 then -q else q)
      ∧ (if q < 0 then -q else q) < (n : ℚ) / 1000 + 1 / 2000 := by
  have hx0 : (0 : ℚ) ≤ (if q < 0 then -q else q) := by
    split_ifs with h
    · linarith
    · exact not_lt.mp h
  generalize hx : (if q < 0 then -q else q) = x at hq hx0
  have hfl : (0 : ℤ) ≤ ⌊x * 1000 + 1 / 2⌋ := Int.floor_nonneg.mpr (by linarith)
  have hcast : ((Int.toNat ⌊x * 1000 + 1 / 2⌋ : ℕ) : ℚ) = ((⌊x * 1000 + 1 / 2⌋ : ℤ) : ℚ) := by
    have := Int.toNat_of_nonneg hfl
    exact_mod_cast this
  refine ⟨Int.toNat ⌊x * 1000 + 1 / 2⌋, ?_, ?_, ?_⟩
  · unfold JSNum.toFixed3
    simp only [hx, not_le.mpr hq, if_false]
    rfl
  · have h1 := Int.floor_le (x * 1000 + 1 / 2)
    rw [hcast]
    linarith
  · have h1 := Int.lt_floor_add_one (x * 1000 + 1 / 2)
    rw [hcast]
    linarith

theorem leadingBit_go_bounds : ∀ (fuel n : Nat), n ≤ fuel → n ≠ 0 →
    2 ^ leadingBit.go fuel n ≤ n ∧ n < 2 ^ (leadingBit.go fuel n + 1) := by
  intro fuel
  induction fuel with
  | zero =>
    intro n hn h0
    omega
  | succ fuel ih =>
    intro n hn h0
    unfold leadingBit.go
    split
    · next h2 =>
      simp
      omega
    · next h2 =>
      have hhalf := ih (n / 2) (by omega) (by omega)
      have e1 : 2 ^ (leadingBit.go fuel (n / 2) + 1) = 2 * 2 ^ leadingBit.go fuel (n / 2) := by
        rw [pow_succ]; ring
      have e2 : 2 ^ (leadingBit.go fuel (n / 2) + 1 + 1)
          = 4 * 2 ^ leadingBit.go fuel (n / 2) := by
        rw [pow_succ, pow_succ]; ring
      rw [e1] at hhalf
      rw [e1, e2]
      omega

theorem leadingBit_bounds {n : Nat} (h : n ≠ 0) :
    2 ^ leadingBit n ≤ n ∧ n < 2 ^ (leadingBit n + 1) :=
  leadingBit_go_bounds n n (Nat.le_refl n) h

theorem floorLog2_le {a : ℚ} (ha : 0 < a) : (2 : ℚ) ^ floorLog2 a ≤ a := by
  unfold floorLog2
  simp only
  split
  · next h => exact h
  · have hnum : 0 < a.num := Rat.num_pos.mpr ha
    have hn0 : a.num.natAbs ≠ 0 := by omega
    have hd0 : a.den ≠ 0 := a.den_nz
    obtain ⟨hn1, _⟩ := leadingBit_bounds hn0
    obtain ⟨_, hd2⟩ := leadingBit_bounds hd0
    have hn1q : (2 : ℚ) ^ leadingBit a.num.natAbs ≤ (a.num.natAbs : ℚ) := by
      exact_mod_cast hn1
    have hd2q : (a.den : ℚ) ≤ (2 : ℚ) ^ (leadingBit a.den + 1) := by
      exact_mod_cast le_of_lt hd2
    have hnabs : ((a.num.natAbs : ℕ) : ℚ) = (a.num : ℚ) := by
      have h1 : ((a.num.natAbs : ℕ) : ℤ) = a.num := Int.natAbs_of_nonneg (le_of_lt hnum)
      have h2 : ((a.num.natAbs : ℕ) : ℚ) = (((a.num.natAbs : ℕ) : ℤ) : ℚ) :=
        (Int.cast_natCast _).symm
      rw [h2, h1]
    have hdpos : (0 : ℚ) < (a.den : ℚ) := by exact_mod_cast a.den_pos
    have hpow : (2 : ℚ) ^ ((leadingBit a.num.natAbs : ℤ) - (leadingBit a.den : ℤ) - 1)
        = (2 : ℚ) ^ leadingBit a.num.natAbs / (2 : ℚ) ^ (leadingBit a.den + 1) := by
      rw [show ((leadingBit a.num.natAbs : ℤ) - (leadingBit a.den : ℤ) - 1)
          = (leadingBit a.num.natAbs : ℤ) - ((leadingBit a.den + 1 : ℕ) : ℤ) by push_cast; ring]
      rw [zpow_sub₀ (by norm_num : (2 : ℚ) ≠ 0), zpow_natCast, zpow_natCast]
    rw [hpow]
    calc (2 : ℚ) ^ leadingBit a.num.natAbs / (2 : ℚ) ^ (leadingBit a.den + 1)
        ≤ ((a.num.natAbs : ℕ) : ℚ) / (a.den : ℚ) :=
          div_le_div₀ (Nat.cast_nonneg _) hn1q hdpos hd2q
      _ = (a.num : ℚ) / (a.den : ℚ) := by rw [hnabs]
      _ = a := Rat.num_div_den a

theorem floorLog2_lt {a : ℚ} (ha : 0 < a) : a < (2 : ℚ) ^ (floorLog2 a + 1) := by
  unfold floorLog2
  simp only
  split
  · have hnum : 0 < a.num := Rat.num_pos.mpr ha
    have hn0 : a.num.natAbs ≠ 0 := by omega
    have hd0 : a.den ≠ 0 := a.den_nz
    obtain ⟨_, hn2⟩ := leadingBit_bounds hn0
    obtain ⟨hd1, _⟩ := leadingBit_bounds hd0
    have hn2q : ((a.num.natAbs : ℕ) : ℚ) < (2 : ℚ) ^ (leadingBit a.num.natAbs + 1) := by
      exact_mod_cast hn2
    have hd1q : (2 : ℚ) ^ leadingBit a.den ≤ (a.den : ℚ) := by
      exact_mod_cast hd1
    have hnabs : ((a.num.natAbs : ℕ) : ℚ) = (a.num : ℚ) := by
      have h1 : ((a.num.natAbs : ℕ) : ℤ) = a.num := Int.natAbs_of_nonneg (le_of_lt hnum)
      have h2 : ((a.num.natAbs : ℕ) : ℚ) = (((a.num.natAbs : ℕ) : ℤ) : ℚ) :=
        (Int.cast_natCast _).symm
      rw [h2, h1]
    have hpow : (2 : ℚ) ^ ((leadingBit a.num.natAbs : ℤ) - (leadingBit a.den : ℤ) + 1)
        = (2 : ℚ) ^ (leadingBit a.num.natAbs + 1) / (2 : ℚ) ^ leadingBit a.den := by
      rw [show ((leadingBit a.num.natAbs : ℤ) - (leadingBit a.den : ℤ) + 1)
          = ((leadingBit a.num.natAbs + 1 : ℕ) : ℤ) - (leadingBit a.den : ℤ) by push_cast; ring]
      rw [zpow_sub₀ (by norm_num : (2 : ℚ) ≠ 0), zpow_natCast, zpow_natCast]
    rw [hpow]
    calc a = (a.num : ℚ) / (a.den : ℚ) := (Rat.num_div_den a).symm
      _ = ((a.num.natAbs : ℕ) : ℚ) / (a.den : ℚ) := by rw [hnabs]
      _ < (2 : ℚ) ^ (leadingBit a.num.natAbs + 1) / (2 : ℚ) ^ leadingBit a.den :=
          div_lt_div₀ hn2q hd1q (by positivity) (by positivity)
  · next h =>
    rw [show ((leadingBit a.num.natAbs : ℤ) - (leadingBit a.den : ℤ) - 1 + 1)
        = (leadingBit a.num.natAbs : ℤ) - (leadingBit a.den : ℤ) by ring]
    exact not_le.mp h

theorem roundHalfEven_floor_le (x : ℚ) : Rat.floor x ≤ roundHalfEven x := by
  unfold roundHalfEven
  simp only
  split_ifs <;> omega

theorem one_le_roundHalfEven {x : ℚ} (hx : 1 ≤ x) : 1 ≤ roundHalfEven x := by
  have h1 : (1 : ℤ) ≤ Rat.floor x := by
    have : ((1 : ℤ) : ℚ) ≤ x := by exact_mod_cast hx
    exact Rat.le_floor.mpr this
  exact le_trans h1 (roundHalfEven_floor_le x)

/-- A number at least `2^-1074` below zero rounds to a negative value. -/
theorem binary64_neg {q : ℚ} (hq : q ≤ -(2 : ℚ) ^ (-1074 : ℤ)) :
    binary64 q = JSNum.negInf ∨ ∃ d : ℚ, d < 0 ∧ binary64 q = JSNum.fin d := by
  have hg : (0 : ℚ) < (2 : ℚ) ^ (-1074 : ℤ) := by positivity
  have hneg : q < 0 := by linarith
  have hq0 : q ≠ 0 := ne_of_lt hneg
  have ha : (2 : ℚ) ^ (-1074 : ℤ) ≤ -q := by linarith
  have hapos : (0 : ℚ) < -q := by linarith
  have hm : 1 ≤ roundHalfEven (-q / (2 : ℚ) ^ (max (floorLog2 (-q)) (-1022) - 52)) := by
    apply one_le_roundHalfEven
    rw [one_le_div (by positivity)]
    rcases le_total (floorLog2 (-q)) (-1022) with h | h
    · rw [max_eq_right h]
      norm_num
      norm_num at ha
      exact ha
    · rw [max_eq_left h]
      calc (2 : ℚ) ^ (floorLog2 (-q) - 52) ≤ (2 : ℚ) ^ (floorLog2 (-q)) :=
            zpow_le_zpow_right₀ (by norm_num) (by omega)
        _ ≤ -q := floorLog2_le hapos
  have hv : (0 : ℚ) < (roundHalfEven (-q / (2 : ℚ) ^ (max (floorLog2 (-q)) (-1022) - 52)) : ℚ)
      * (2 : ℚ) ^ (max (floorLog2 (-q)) (-1022) - 52) := by
    have : (0 : ℚ) < (roundHalfEven (-q / (2 : ℚ) ^ (max (floorLog2 (-q)) (-1022) - 52)) : ℚ) := by
      exact_mod_cast (by omega : (0 : ℤ) < roundHalfEven (-q / (2 : ℚ) ^ (max (floorLog2 (-q)) (-1022) - 52)))
    positivity
  unfold binary64
  simp only [hq0, hneg, if_false, if_true]
  split
  · exact Or.inl rfl
  · exact Or.inr ⟨_, by linarith, rfl⟩

/-- Every finite binary64 value is a whole multiple of `2^-1074`. -/
theorem binary64_grid {q v : ℚ} (h : binary64 q = JSNum.fin v) :
    ∃ n : ℤ, v = (n : ℚ) * (2 : ℚ) ^ (-1074 : ℤ) := by
  by_cases hq0 : q = 0
  · refine ⟨0, ?_⟩
    have hv : JSNum.fin 0 = JSNum.fin v := by
      rw [← h]
      simp [binary64, hq0]
    have := JSNum.fin.inj hv
    simp [← this]
  · have hscale : ∀ e : ℤ, -1022 ≤ e → ∀ m : ℤ, ∃ n : ℤ,
        (m : ℚ) * (2 : ℚ) ^ (e - 52) = (n : ℚ) * (2 : ℚ) ^ (-1074 : ℤ) := by
      intro e he m
      refine ⟨m * 2 ^ (e - 52 + 1074).toNat, ?_⟩
      have hk : (0 : ℤ) ≤ e - 52 + 1074 := by omega
      have hpow : (2 : ℚ) ^ (e - 52)
          = (2 : ℚ) ^ ((e - 52 + 1074).toNat : ℤ) * (2 : ℚ) ^ (-1074 : ℤ) := by
        rw [Int.toNat_of_nonneg hk, ← zpow_add₀ (by norm_num : (2 : ℚ) ≠ 0)]
        congr 1
        ring
      rw [hpow, zpow_natCast]
      push_cast
      ring
    unfold binary64 at h
    by_cases hneg : q < 0
    · simp only [hq0, hneg, if_false, if_true] at h
      split at h
      · cases h
      · have hv := JSNum.fin.inj h
        obtain ⟨n, hn⟩ := hscale (max (floorLog2 (-q)) (-1022)) (le_max_right _ _)
          (roundHalfEven (-q / (2 : ℚ) ^ (max (floorLog2 (-q)) (-1022) - 52)))
        rw [hn] at hv
        refine ⟨-n, ?_⟩
        rw [← hv]
        push_cast
        ring
    · simp only [hq0, hneg, if_false] at h
      split at h
      · cases h
      · have hv := JSNum.fin.inj h
        obtain ⟨n, hn⟩ := hscale (max (floorLog2 q) (-1022)) (le_max_right _ _)
          (roundHalfEven (q / (2 : ℚ) ^ (max (floorLog2 q) (-1022) - 52)))
        rw [hn] at hv
        exact ⟨n, hv.symm⟩

theorem round64_grid {X : JSNum} {v : ℚ} (h : X.round64 = JSNum.fin v) :
    ∃ n : ℤ, v = (n : ℚ) * (2 : ℚ) ^ (-1074 : ℤ) := by
  cases X with
  | nan => cases h
  | negInf => cases h
  | posInf => cases h
  | fin q => exact binary64_grid h

/-- The difference of two binary64 values, the first below the second, rounds to a
negative value. -/
theorem round64_sub_neg {X Y : JSNum} {t c : ℚ} (hX : X.round64 = JSNum.fin t)
    (hY : Y.round64 = JSNum.fin c) (htc : t < c) :
    ((JSNum.fin t).sub (JSNum.fin c)).round64 = JSNum.negInf
      ∨ ∃ d : ℚ, d < 0 ∧ ((JSNum.fin t).sub (JSNum.fin c)).round64 = JSNum.fin d := by
  obtain ⟨nt, hnt⟩ := round64_grid hX
  obtain ⟨nc, hnc⟩ := round64_grid hY
  have hg : (0 : ℚ) < (2 : ℚ) ^ (-1074 : ℤ) := by positivity
  have hlt : nt < nc := by
    by_contra hge
    have hge2 : (nc : ℚ) ≤ (nt : ℚ) := by exact_mod_cast not_lt.mp hge
    have : c ≤ t := by
      rw [hnt, hnc]
      exact mul_le_mul_of_nonneg_right hge2 (le_of_lt hg)
    linarith
  have hstep : (nt : ℚ) + 1 ≤ (nc : ℚ) := by exact_mod_cast hlt
  have hq : t - c ≤ -(2 : ℚ) ^ (-1074 : ℤ) := by
    rw [hnt, hnc]
    nlinarith
  exact binary64_neg hq

/-- Claim C11, as stated, fails: for an entry with total supply 21,000,000 and
10,565,625 coins in circulation the code stores the remaining percent "49.687", because
the quotient 10565625 / 21000000 is rounded before it is multiplied by 100 and the
difference from 100 falls just below 49.6875; the 3-decimal rounding of
100 * (total - circulating) / total = 49.6875 is "49.688". -/
theorem remainingPercent_rounding_differs :
    (Model.processData.coinData64 String.toUpper fixtureRoundingEntry 0).totalSupply
      = JSNum.fin 21000000
    ∧ (Model.processData.coinData64 String.toUpper fixtureRoundingEntry 0).circulation
      = JSNum.fin 10565625
    ∧ (Model.processData.coinData64 String.toUpper fixtureRoundingEntry 0).remainingPercent
      = FixedStr.digits false 49687
    ∧ (Model.processData.coinData64 String.toUpper fixtureRoundingEntry 0).remainingPercent.text
      = some "49.687"
    ∧ JSNum.toFixed3 (JSNum.fin (100 * (21000000 - 10565625) / 21000000))
      = FixedStr.digits false 49688
    ∧ (Model.processData.coinData64 String.toUpper fixtureRoundingEntry 0).remainingPercent
      ≠ JSNum.toFixed3 (JSNum.fin (100 * (21000000 - 10565625) / 21000000)) := by
  refine ⟨?_, ?_, ?_, ?_, ?_, ?_⟩ <;> decide!

/-- Claim C11, amended: for every raw ticker entry, the record `Model.processData`
derives has remainingSupply = totalSupply - circulatingSupply, rounded to binary64 and
not clamped: when both supplies are finite and the circulating supply exceeds the total
it is negative (or -Infinity). Its remainingPercent is
100 - ((totalSupply - remainingSupply) / totalSupply * 100), each operation rounded to
binary64, put through `toFixed(3)`. For finite supplies with a totalSupply other than
zero that is `toFixed(3)` of 100 * (totalSupply - circulatingSupply) / totalSupply
whenever none of the five operations rounds. -/
theorem coinData64_remaining (toUpperCase : String → String) (x : RawEntry) (i : Nat) :
    ∃ r : CoinData,
      r = Model.processData.coinData64 toUpperCase x i
      ∧ r.remainingCount = (r.totalSupply.sub r.circulation).round64
      ∧ (∀ t c : ℚ, r.totalSupply = JSNum.fin t → r.circulation = JSNum.fin c → t < c →
          r.remainingCount = JSNum.negInf ∨ ∃ d : ℚ, d < 0 ∧ r.remainingCount = JSNum.fin d)
      ∧ r.remainingPercent = JSNum.toFixed3 (((JSNum.fin 100).sub
          ((((r.totalSupply.sub r.remainingCount).round64.div r.totalSupply).round64.mul
            (JSNum.fin 100)).round64)).round64)
      ∧ (∀ t c : ℚ, r.totalSupply = JSNum.fin t → r.circulation = JSNum.fin c → t ≠ 0 →
          Model.processData.exactSteps t c →
          r.remainingPercent = JSNum.toFixed3 (JSNum.fin (100 * (t - c) / t))) := by
  have hcount : (Model.processData.coinData64 toUpperCase x i).remainingCount
      = ((Model.processData.coinData64 toUpperCase x i).totalSupply.sub
          (Model.processData.coinData64 toUpperCase x i).circulation).round64 := rfl
  have hpercent : (Model.processData.coinData64 toUpperCase x i).remainingPercent
      = JSNum.toFixed3 (((JSNum.fin 100).sub
          (((((Model.processData.coinData64 toUpperCase x i).totalSupply.sub
              (Model.processData.coinData64 toUpperCase x i).remainingCount).round64.div
            (Model.processData.coinData64 toUpperCase x i).totalSupply).round64.mul
            (JSNum.fin 100)).round64)).round64) := rfl
  refine ⟨_, rfl, hcount, ?_, hpercent, ?_⟩
  · intro t c ht hc htc
    rw [hcount, ht, hc]
    have hX : (if x.max_supply = RawVal.null then x.total_supply
        else x.max_supply).toNumber.round64 = JSNum.fin t := ht
    have hY : x.available_supply.toNumber.round64 = JSNum.fin c := hc
    exact round64_sub_neg hX hY htc
  · intro t c ht hc ht0 hexact
    obtain ⟨h1, h2, h3, h4, h5⟩ := hexact
    rw [hpercent, hcount, ht, hc]
    simp only [JSNum.sub, JSNum.round64, h1, h2, JSNum.div, ht0, if_false, h3, JSNum.mul, h4,
      h5]
    congr 2
    field_simp
    ring

theorem coinData64_remaining_witness :
    (Model.processData.coinData64 String.toUpper fixtureOverIssuedEntry 0).totalSupply
      = JSNum.fin 10
    ∧ (Model.processData.coinData64 String.toUpper fixtureOverIssuedEntry 0).circulation
      = JSNum.fin 15
    ∧ Model.processData.exactSteps 10 15
    ∧ ((Model.processData.coinData64 String.toUpper fixtureOverIssuedEntry 0).remainingCount
        = JSNum.negInf
      ∨ ∃ d : ℚ, d < 0
        ∧ (Model.processData.coinData64 String.toUpper fixtureOverIssuedEntry 0).remainingCount
          = JSNum.fin d)
    ∧ (Model.processData.coinData64 String.toUpper fixtureOverIssuedEntry 0).remainingPercent
      = JSNum.toFixed3 (JSNum.fin (100 * (10 - 15) / 10)) := by
  obtain ⟨r, hr, _, hneg, _, hexact⟩ :=
    coinData64_remaining String.toUpper fixtureOverIssuedEntry 0
  have ht : (Model.processData.coinData64 String.toUpper fixtureOverIssuedEntry 0).totalSupply
      = JSNum.fin 10 := by decide!
  have hc : (Model.processData.coinData64 String.toUpper fixtureOverIssuedEntry 0).circulation
      = JSNum.fin 15 := by decide!
  have hsteps : Model.processData.exactSteps 10 15 := by
    unfold Model.processData.exactSteps
    refine ⟨?_, ?_, ?_, ?_, ?_⟩ <;> decide!
  subst hr
  exact ⟨ht, hc, hsteps, hneg 10 15 ht hc (by norm_num),
    hexact 10 15 ht hc (by norm_num) hsteps⟩

/-! ## Record derivation: the fate of unparseable fields -/

theorem processData_loop_promise (toUpperCase : String → String) (len : Nat) :
    ∀ (xs : List RawEntry) (i : Nat) (st : Model.ProcessState),
      i + xs.length = len → st.promise = PromiseState.pending →
      (Model.processData.loop toUpperCase len i xs st).promise =
        match xs with
        | [] => PromiseState.pending
        | _ :: _ => PromiseState.fulfilled () := by
  intro xs
  induction xs with
  | nil =>
    intro i st _ hp
    simpa [Model.processData.loop] using hp
  | cons x xs ih =>
    intro i st hlen hp
    unfold Model.processData.loop
    cases xs with
    | nil =>
      have hi : i = len - 1 := by simp at hlen; omega
      simp [Model.processData.loop, hi, hp, PromiseState.resolve]
    | cons y ys =>
      have hi : i ≠ len - 1 := by simp at hlen; omega
      have := ih (i + 1) ⟨st.promise, st.coins ++ [Model.processData.coinData toUpperCase x i]⟩
        (by simp at hlen ⊢; omega) hp
      simp only [hi, if_false]
      rw [this]

theorem processData_promise_of_ne_nil (toUpperCase : String → String) (data : List RawEntry)
    (coins : List CoinData) (h : data ≠ []) :
    (Model.processData toUpperCase data coins).promise = PromiseState.fulfilled () := by
  unfold Model.processData
  rw [processData_loop_promise toUpperCase data.length data 0 _ (by simp) rfl]
  cases data with
  | nil => exact absurd rfl h
  | cons x xs => rfl

theorem derivedFrom_length (toUpperCase : String → String) :
    ∀ (xs : List RawEntry) (k : Nat), (derivedFrom toUpperCase k xs).length = xs.length := by
  intro xs
  induction xs with
  | nil =>
    intro k
    rfl
  | cons x xs ih =>
    intro k
    simp [derivedFrom, ih]

/-- Claim C12, as stated, fails: for a batch whose only entry has an available supply
that does not parse as a number, `Model.processData` does not fail. Its Promise is
fulfilled, not rejected, and the record, with circulatingSupply `NaN`, is in the store. -/
theorem processData_publishes_unparsed :
    fixtureBadBatch.map (fun x => x.available_supply) = [RawVal.number JSNum.nan]
    ∧ (Model.processData String.toUpper fixtureBadBatch []).promise = PromiseState.fulfilled ()
    ∧ (Model.processData String.toUpper fixtureBadBatch []).promise
        ≠ PromiseState.rejected Rejection.typeError
    ∧ (Model.processData String.toUpper fixtureBadBatch []).coins.map (fun r => r.circulation)
        = [JSNum.nan] := by
  refine ⟨?_, ?_, ?_, ?_⟩ <;> decide!

/-- Claim C12, amended: a numeric field that cannot be parsed does not make
`Model.processData` fail. For every batch that is not empty and whose entries have a
string id, the Promise is fulfilled and every entry of the batch has its record in the
store, with circulatingSupply, totalSupply, price, market cap and the three percent
changes equal to the number the raw field converts to, which is `NaN` for a field that
cannot be parsed. -/
theorem processData_publishes_nan (toUpperCase : String → String) (data : List RawEntry)
    (coins : List CoinData) (hne : data ≠ []) :
    (Model.processData toUpperCase data coins).promise = PromiseState.fulfilled ()
    ∧ (Model.processData toUpperCase data coins).coins.length = coins.length + data.length
    ∧ ∀ i x, data[i]? = some x →
        ∃ r : CoinData,
          (Model.processData toUpperCase data coins).coins[coins.length + i]? = some r
          ∧ r.circulation = x.available_supply.toNumber
          ∧ r.totalSupply = (if x.max_supply = RawVal.null then x.total_supply
              else x.max_supply).toNumber
          ∧ r.price = x.price_usd.toNumber
          ∧ r.marketCap = x.market_cap_usd.toNumber
          ∧ r.oneHour = x.percent_change_1h.toNumber
          ∧ r.oneDay = x.percent_change_24h.toNumber
          ∧ r.sevenDay = x.percent_change_7d.toNumber
          ∧ (x.available_supply = RawVal.number JSNum.nan → r.circulation = JSNum.nan)
          ∧ (x.max_supply = RawVal.null → x.total_supply = RawVal.number JSNum.nan →
              r.totalSupply = JSNum.nan)
          ∧ (x.max_supply = RawVal.number JSNum.nan → r.totalSupply = JSNum.nan)
          ∧ (x.price_usd = RawVal.number JSNum.nan → r.price = JSNum.nan)
          ∧ (x.market_cap_usd = RawVal.number JSNum.nan → r.marketCap = JSNum.nan)
          ∧ (x.percent_change_1h = RawVal.number JSNum.nan → r.oneHour = JSNum.nan)
          ∧ (x.percent_change_24h = RawVal.number JSNum.nan → r.oneDay = JSNum.nan)
          ∧ (x.percent_change_7d = RawVal.number JSNum.nan → r.sevenDay = JSNum.nan) := by
  refine ⟨processData_promise_of_ne_nil toUpperCase data coins hne, ?_, ?_⟩
  · rw [processData_coins, List.length_append, derivedFrom_length]
  · intro i x hx
    refine ⟨_, processData_getElem? toUpperCase data coins i x hx,
      rfl, rfl, rfl, rfl, rfl, rfl, rfl, ?_, ?_, ?_, ?_, ?_, ?_, ?_, ?_⟩
    · intro h
      simp [Model.processData.coinData, h, RawVal.toNumber]
    · intro h1 h2
      simp [Model.processData.coinData, h1, h2, RawVal.toNumber]
    · intro h
      simp [Model.processData.coinData, h, RawVal.toNumber]
    · intro h
      simp [Model.processData.coinData, h, RawVal.toNumber]
    · intro h
      simp [Model.processData.coinData, h, RawVal.toNumber]
    · intro h
      simp [Model.processData.coinData, h, RawVal.toNumber]
    · intro h
      simp [Model.processData.coinData, h, RawVal.toNumber]
    · intro h
      simp [Model.processData.coinData, h, RawVal.toNumber]

theorem processData_publishes_nan_witness :
    fixtureBadBatch ≠ []
    ∧ (Model.processData String.toUpper fixtureBadBatch []).promise = PromiseState.fulfilled ()
    ∧ (Model.processData String.toUpper fixtureBadBatch []).coins.length
        = ([] : List CoinData).length + fixtureBadBatch.length :=
  ⟨List.cons_ne_nil _ _,
    (processData_publishes_nan String.toUpper fixtureBadBatch [] (List.cons_ne_nil _ _)).1,
    (processData_publishes_nan String.toUpper fixtureBadBatch [] (List.cons_ne_nil _ _)).2.1⟩

/-! ## Totality of the lookup and of the band filter -/

/-- Claim C13 (the code departs from it): on the empty sequence neither operation
produces an outcome. The Promise of `Utility.getCoinByName` and that of
`Utility.getCoinsByMinMax` are resolved from inside the callback of `coins.map`, which
never runs for an empty array, so both stay pending for ever; the filters, which resolve
after the traversal, do produce the empty result. -/
theorem lookup_and_band_pending_on_empty :
    Utility.getCoinByName "A" [] = PromiseState.pending
    ∧ Utility.getCoinsByMinMax (some (fixtureCoin 0 "A" 50000000 5)) [] = PromiseState.pending
    ∧ Utility.filterLowSupply [] = PromiseState.fulfilled [] := by
  refine ⟨?_, ?_, ?_⟩ <;> decide

/-! ## The rank filter -/

/-- Claim C14: for every store and every cutoff `c`, `Model.filterByRank(c)` resolves
with exactly the records of the store with rank (id) at most `c`: they are kept in the
store's order, each as often as the store holds it, and every record with rank above `c`
is dropped. -/
theorem filterByRank_keeps_rank_at_most (coins : List CoinData) (c : Nat) :
    ∃ kept : List CoinData,
      Model.filterByRank c coins = PromiseState.fulfilled kept
      ∧ kept.Sublist coins
      ∧ (∀ r, r ∈ kept ↔ r ∈ coins ∧ r.id ≤ c)
      ∧ (∀ r, r.id ≤ c → kept.count r = coins.count r)
      ∧ (∀ r, c < r.id → r ∉ kept) := by
  refine ⟨coins.filter (fun x => decide (x.id ≤ c)), rfl, List.filter_sublist coins, ?_, ?_, ?_⟩
  · intro r
    simp [List.mem_filter]
  · intro r hr
    exact List.count_filter (by simpa using hr)
  · intro r hr hmem
    have := (List.mem_filter.mp hmem).2
    simp at this
    omega

/-- Claim C15: for every sequence of records, `Utility.sortByPriceAsc` resolves with a
rearrangement of the input. When the prices are numbers, the result is in non-decreasing
price order, the records of any one price keep their input order (the sort is stable),
and sorting the result again changes nothing. Applied to a sequence that is already in
non-decreasing price order it returns the identical sequence. -/
theorem sortByPriceAsc_stable (coins : List CoinData) :
    ∃ sorted : List CoinData,
      (Utility.sortByPriceAsc coins).promise = PromiseState.fulfilled sorted
      ∧ sorted.Perm coins
      ∧ ((∀ r ∈ coins, r.price ≠ JSNum.nan) →
          sorted.Pairwise (fun a b => a.price.le b.price = true)
          ∧ (∀ p : JSNum, sorted.filter (fun x => decide (x.price = p))
              = coins.filter (fun x => decide (x.price = p)))
          ∧ (Utility.sortByPriceAsc sorted).promise = PromiseState.fulfilled sorted)
      ∧ (coins.Pairwise (fun a b => a.price.le b.price = true) → sorted = coins) :=
  ⟨_, rfl, arraySort_perm _ coins,
    fun hnum => ⟨arraySort_pairwise (fun x : CoinData => x.price) coins hnum,
      fun p => arraySort_filter_key (fun x : CoinData => x.price) p coins,
      congrArg PromiseState.fulfilled
        (arraySort_of_pairwise (fun x : CoinData => x.price) _
          (arraySort_pairwise (fun x : CoinData => x.price) coins hnum))⟩,
    fun hs => arraySort_of_pairwise (fun x : CoinData => x.price) coins hs⟩

theorem sortByPriceAsc_stable_witness :
    (∀ r ∈ [fixtureCoin 0 "A" 3 5, fixtureCoin 1 "B" 2 4, fixtureCoin 2 "C" 1 5],
        r.price ≠ JSNum.nan)
    ∧ ∃ sorted : List CoinData,
      (Utility.sortByPriceAsc
        [fixtureCoin 0 "A" 3 5, fixtureCoin 1 "B" 2 4, fixtureCoin 2 "C" 1 5]).promise
        = PromiseState.fulfilled sorted
      ∧ sorted.filter (fun x => decide (x.price = JSNum.fin 5))
        = [fixtureCoin 0 "A" 3 5, fixtureCoin 2 "C" 1 5]
      ∧ sorted.Pairwise (fun a b => a.price.le b.price = true) := by
  obtain ⟨sorted, hsorted, _, hnumeric, _⟩ := sortByPriceAsc_stable
    [fixtureCoin 0 "A" 3 5, fixtureCoin 1 "B" 2 4, fixtureCoin 2 "C" 1 5]
  obtain ⟨horder, hstable, _⟩ := hnumeric (by decide)
  refine ⟨by decide, sorted, hsorted, ?_, horder⟩
  rw [hstable]
  decide!

/-! ## The composite 'cheapest + low total supply' -/

/-- Claim C16: for every store, `Model.sortCheapestLowSupply` resolves with
sort-by-price(filter totalSupply <= 10,000,000 (sort-by-total-supply(store))). The
result consists of exactly the records of the store with totalSupply at most 10,000,000,
each as often as the store holds it; when the prices and total supplies of the store are
numbers it is in non-decreasing price order, and records of equal price are in
non-decreasing totalSupply order. -/
theorem sortCheapestLowSupply_composition (coins : List CoinData) :
    ∃ result : List CoinData,
      (Model.sortCheapestLowSupply coins).promise = PromiseState.fulfilled result
      ∧ result = arraySort (fun a b => a.price.sub b.price)
          ((arraySort (fun a b => a.totalSupply.sub b.totalSupply) coins).filter
            (fun x => x.totalSupply.le (JSNum.fin 10000000)))
      ∧ result.Perm (coins.filter (fun x => x.totalSupply.le (JSNum.fin 10000000)))
      ∧ ((∀ r ∈ coins, r.price ≠ JSNum.nan) → (∀ r ∈ coins, r.totalSupply ≠ JSNum.nan) →
          result.Pairwise (fun a b => a.price.le b.price = true
            ∧ (a.price = b.price → a.totalSupply.le b.totalSupply = true))) := by
  refine ⟨_, rfl, rfl, ?_, ?_⟩
  · exact (arraySort_perm _ _).trans ((arraySort_perm _ coins).filter _)
  · intro hprice hsupply
    have hF : ((arraySort (fun a b : CoinData => a.totalSupply.sub b.totalSupply) coins).filter
        (fun x => x.totalSupply.le (JSNum.fin 10000000))).Pairwise
          (fun a b => a.totalSupply.le b.totalSupply = true) :=
      (arraySort_pairwise (fun x : CoinData => x.totalSupply) coins hsupply).filter _
    have hP := arraySort_pairwise (fun x : CoinData => x.price)
      ((arraySort (fun a b : CoinData => a.totalSupply.sub b.totalSupply) coins).filter
        (fun x => x.totalSupply.le (JSNum.fin 10000000)))
      (fun r hr => hprice r ((arraySort_perm _ coins).subset (List.mem_filter.mp hr).1))
    rw [List.pairwise_iff_forall_sublist]
    intro a b hab
    refine ⟨List.pairwise_iff_forall_sublist.mp hP hab, ?_⟩
    intro heq
    have hsub := hab.filter (fun x : CoinData => decide (x.price = a.price))
    rw [arraySort_filter_key (fun x : CoinData => x.price) a.price] at hsub
    have hab2 : List.Sublist [a, b]
        ((arraySort (fun a b : CoinData => a.totalSupply.sub b.totalSupply) coins).filter
          (fun x => x.totalSupply.le (JSNum.fin 10000000))) := by
      refine List.Sublist.trans ?_ (hsub.trans (List.filter_sublist _))
      simp [List.filter_cons, heq]
    exact List.pairwise_iff_forall_sublist.mp hF hab2

theorem sortCheapestLowSupply_composition_witness :
    (∀ r ∈ [fixtureCoin 0 "A" 20000000 5, fixtureCoin 1 "B" 5000000 9,
        fixtureCoin 2 "C" 1000000 9], r.price ≠ JSNum.nan)
    ∧ (∀ r ∈ [fixtureCoin 0 "A" 20000000 5, fixtureCoin 1 "B" 5000000 9,
        fixtureCoin 2 "C" 1000000 9], r.totalSupply ≠ JSNum.nan)
    ∧ ∃ result : List CoinData,
      (Model.sortCheapestLowSupply [fixtureCoin 0 "A" 20000000 5, fixtureCoin 1 "B" 5000000 9,
        fixtureCoin 2 "C" 1000000 9]).promise = PromiseState.fulfilled result
      ∧ result.Pairwise (fun a b => a.price.le b.price = true
          ∧ (a.price = b.price → a.totalSupply.le b.totalSupply = true)) := by
  obtain ⟨result, hresult, _, _, horder⟩ := sortCheapestLowSupply_composition
    [fixtureCoin 0 "A" 20000000 5, fixtureCoin 1 "B" 5000000 9, fixtureCoin 2 "C" 1000000 9]
  exact ⟨by decide, by decide, result, hresult, horder (by decide) (by decide)⟩

/-! ## The related list and its target -/

/-- A total supply that is a number lies inside its own band. -/
theorem minMax_contains {s : JSNum} (hs : s ≠ JSNum.nan) :
    (Utility.getCoinsByMinMax.minMax s).1.le s = true
      ∧ s.le (Utility.getCoinsByMinMax.minMax s).2 = true := by
  cases s with
  | nan => exact absurd rfl hs
  | negInf => simp [Utility.getCoinsByMinMax.minMax, JSNum.le, JSNum.sub, JSNum.add]
  | posInf => simp [Utility.getCoinsByMinMax.minMax, JSNum.le, JSNum.sub, JSNum.add]
  | fin q =>
    unfold Utility.getCoinsByMinMax.minMax
    split_ifs <;> simp [JSNum.le, JSNum.sub, JSNum.add]

/-- Claim C17: for every store that holds a record named `targetName`, the total supply
of each such record being a number, the related list that `Model.getRelatedCoins`
resolves with contains the target record itself: the target's totalSupply lies inside
its own supply band, and nothing removes the target from the list. -/
theorem getRelatedCoins_contains_target (coins : List CoinData) (targetName : String)
    (h : ∃ r ∈ coins, r.name = targetName)
    (hnum : ∀ r ∈ coins, r.name = targetName → r.totalSupply ≠ JSNum.nan) :
    ∃ (target : CoinData) (related : List CoinData),
      Model.getRelatedCoins targetName coins = PromiseState.fulfilled (some target, related)
      ∧ target ∈ coins ∧ target.name = targetName
      ∧ (specSupplyBand target.totalSupply).1.le target.totalSupply = true
      ∧ target.totalSupply.le (specSupplyBand target.totalSupply).2 = true
      ∧ target ∈ related := by
  obtain ⟨target, htarget⟩ := lastNamed_isSome h
  obtain ⟨hname, pre, post, hsplit, _⟩ := lastNamed_eq_some htarget
  have hmem : target ∈ coins := by
    rw [hsplit]
    simp
  have hin := minMax_contains (hnum target hmem hname)
  refine ⟨target, _, getRelatedCoins_of_lastNamed_some htarget, hmem, hname, ?_, ?_, ?_⟩
  · rw [← minMax_eq_specSupplyBand]
    exact hin.1
  · rw [← minMax_eq_specSupplyBand]
    exact hin.2
  · refine (arraySort_perm _ _).symm.subset (List.mem_filter.mpr ⟨hmem, ?_⟩)
    simp [JSNum.ge, hin.1, hin.2]

theorem getRelatedCoins_contains_target_witness :
    (∃ r ∈ [fixtureCoin 0 "A" 50000000 5, fixtureCoin 1 "B" 47000000 3], r.name = "B")
    ∧ (∀ r ∈ [fixtureCoin 0 "A" 50000000 5, fixtureCoin 1 "B" 47000000 3],
        r.name = "B" → r.totalSupply ≠ JSNum.nan)
    ∧ ∃ (target : CoinData) (related : List CoinData),
      Model.getRelatedCoins "B" [fixtureCoin 0 "A" 50000000 5, fixtureCoin 1 "B" 47000000 3]
        = PromiseState.fulfilled (some target, related)
      ∧ target ∈ [fixtureCoin 0 "A" 50000000 5, fixtureCoin 1 "B" 47000000 3]
      ∧ target.name = "B"
      ∧ (specSupplyBand target.totalSupply).1.le target.totalSupply = true
      ∧ target.totalSupply.le (specSupplyBand target.totalSupply).2 = true
      ∧ target ∈ related :=
  ⟨⟨fixtureCoin 1 "B" 47000000 3, by decide, rfl⟩, by decide,
    getRelatedCoins_contains_target _ "B" ⟨fixtureCoin 1 "B" 47000000 3, by decide, rfl⟩
      (by decide)⟩

/-! ## Ingestion: ranks and the contents of the store -/

theorem derivedFrom_id_ge (toUpperCase : String → String) :
    ∀ (xs : List RawEntry) (k : Nat) (r : CoinData),
      r ∈ derivedFrom toUpperCase k xs → k ≤ r.id := by
  intro xs
  induction xs with
  | nil =>
    intro k r hr
    simp [derivedFrom] at hr
  | cons x xs ih =>
    intro k r hr
    simp only [derivedFrom, List.mem_cons] at hr
    rcases hr with h | h
    · rw [h]
      exact Nat.le_refl k
    · exact Nat.le_of_succ_le (ih (k + 1) r h)

/-- Claim C18: for every store built by ingesting one batch of raw entries into the
empty store with `Model.processData`, `Model.filterByRank(0)` resolves with at most one
record, and a record it resolves with has rank 0. -/
theorem filterByRank_zero_after_ingestion (toUpperCase : String → String)
    (data : List RawEntry) :
    ∃ kept : List CoinData,
      Model.filterByRank 0 (Model.processData toUpperCase data []).coins
        = PromiseState.fulfilled kept
      ∧ kept.length ≤ 1
      ∧ ∀ r ∈ kept, r.id = 0 := by
  refine ⟨_, rfl, ?_, ?_⟩
  · rw [processData_coins, List.nil_append]
    cases data with
    | nil => simp [derivedFrom]
    | cons x xs =>
      have hrest : (derivedFrom toUpperCase 1 xs).filter (fun r => decide (r.id ≤ 0)) = [] := by
        rw [List.filter_eq_nil_iff]
        intro r hr
        have := derivedFrom_id_ge toUpperCase xs 1 r hr
        simp
        omega
      simp only [derivedFrom, List.filter_cons, Nat.zero_add, hrest]
      split <;> simp
  · intro r hr
    have := (List.mem_filter.mp hr).2
    simp at this
    exact this

/-- Claim C19, as stated, fails: ingesting a batch of two entries into a store that
already holds one record leaves three records in the store, the old one first; the new
set is added to the previous one and does not replace it. -/
theorem processData_appends :
    (Model.processData String.toUpper fixtureBatch [fixtureCoin 0 "OLD" 50000000 5]).coins.length
      = 3
    ∧ (Model.processData String.toUpper fixtureBatch [fixtureCoin 0 "OLD" 50000000 5]).coins.head?
      = some (fixtureCoin 0 "OLD" 50000000 5)
    ∧ (Model.processData String.toUpper fixtureBatch [fixtureCoin 0 "OLD" 50000000 5]).coins.length
      ≠ fixtureBatch.length := by
  refine ⟨?_, ?_, ?_⟩ <;> decide!

/-- Claim C19, amended: for every non-empty batch of `n` raw entries and whatever the
store held before, after `Model.processData` the store consists of the records it held
before, unchanged and in their places, followed by exactly `n` new records, one per raw
entry in batch order: the record for entry `i` is derived from that entry, has rank `i`
(0-based) and its name is the entry's id uppercased. An ingestion adds to the previous
set; into the empty store it yields exactly the `n` new records. -/
theorem processData_store (toUpperCase : String → String) (data : List RawEntry)
    (coins : List CoinData) (hne : data ≠ []) :
    (Model.processData toUpperCase data coins).promise = PromiseState.fulfilled ()
    ∧ (Model.processData toUpperCase data coins).coins.length = coins.length + data.length
    ∧ (Model.processData toUpperCase data coins).coins.take coins.length = coins
    ∧ (∀ i x, data[i]? = some x →
        ∃ r : CoinData,
          (Model.processData toUpperCase data coins).coins[coins.length + i]? = some r
          ∧ r = Model.processData.coinData toUpperCase x i
          ∧ r.id = i ∧ r.name = toUpperCase x.id)
    ∧ (coins = [] → (Model.processData toUpperCase data coins).coins.length = data.length) := by
  refine ⟨processData_promise_of_ne_nil toUpperCase data coins hne, ?_, ?_, ?_, ?_⟩
  · rw [processData_coins, List.length_append, derivedFrom_length]
  · rw [processData_coins, List.take_left']
    rfl
  · intro i x hx
    exact ⟨_, processData_getElem? toUpperCase data coins i x hx, rfl, rfl, rfl⟩
  · intro hempty
    rw [processData_coins, List.length_append, derivedFrom_length, hempty]
    simp

theorem processData_store_witness :
    fixtureBatch ≠ []
    ∧ (Model.processData String.toUpper fixtureBatch [fixtureCoin 0 "OLD" 50000000 5]).coins.take
        [fixtureCoin 0 "OLD" 50000000 5].length = [fixtureCoin 0 "OLD" 50000000 5]
    ∧ (Model.processData String.toUpper fixtureBatch
        [fixtureCoin 0 "OLD" 50000000 5]).coins.length
        = [fixtureCoin 0 "OLD" 50000000 5].length + fixtureBatch.length :=
  ⟨List.cons_ne_nil _ _,
    (processData_store String.toUpper fixtureBatch [fixtureCoin 0 "OLD" 50000000 5]
      (List.cons_ne_nil _ _)).2.2.1,
    (processData_store String.toUpper fixtureBatch [fixtureCoin 0 "OLD" 50000000 5]
      (List.cons_ne_nil _ _)).2.1⟩

/-! ## The composite selection in the main view -/

/-- Claim C20: for every store and every rank cutoff `c`, the sequence
`Controller.filterFull` hands to the display for 'Low Price & Low Total Supply' is
identical to the one it hands over for 'Lowest Total Supply' from the same store, and
both leave the store in the same state. The sequence consists of the records with rank
at most `c`, each as often as the store holds it, and when the total supplies are
numbers it is in non-decreasing totalSupply order: the Promise of the composite, with
its supply filter and price sort, is not a function and `.then` passes it by. -/
theorem filterFull_composite_same_as_totalSupply (coins : List CoinData) (c : Nat) :
    (Controller.filterFull "Low Price & Low Total Supply" c coins).promise
      = (Controller.filterFull "Lowest Total Supply" c coins).promise
    ∧ (Controller.filterFull "Low Price & Low Total Supply" c coins).coins
      = (Controller.filterFull "Lowest Total Supply" c coins).coins
    ∧ ∃ shown : List CoinData,
      (Controller.filterFull "Low Price & Low Total Supply" c coins).promise
        = PromiseState.fulfilled shown
      ∧ shown.Perm (coins.filter (fun r => decide (r.id ≤ c)))
      ∧ ((∀ r ∈ coins, r.totalSupply ≠ JSNum.nan) →
          shown.Pairwise (fun a b => a.totalSupply.le b.totalSupply = true)) := by
  have hcoins : (Controller.filterFull "Low Price & Low Total Supply" c coins).coins
      = arraySort (fun a b => a.totalSupply.sub b.totalSupply) coins := by
    rw [filterFull_coins]
    rfl
  have hcoins2 : (Controller.filterFull "Lowest Total Supply" c coins).coins
      = arraySort (fun a b => a.totalSupply.sub b.totalSupply) coins := by
    rw [filterFull_coins]
    rfl
  refine ⟨by rw [filterFull_promise, filterFull_promise, hcoins, hcoins2],
    by rw [hcoins, hcoins2], _, by rw [filterFull_promise, hcoins],
    (arraySort_perm _ coins).filter _, ?_⟩
  intro hnum
  exact (arraySort_pairwise (fun x : CoinData => x.totalSupply) coins hnum).filter _

theorem filterFull_composite_same_as_totalSupply_witness :
    (∀ r ∈ [fixtureCoin 0 "A" 20000000 5, fixtureCoin 1 "B" 5000000 9,
        fixtureCoin 2 "C" 1000000 10], r.totalSupply ≠ JSNum.nan)
    ∧ ∃ shown : List CoinData,
      (Controller.filterFull "Low Price & Low Total Supply" 1
        [fixtureCoin 0 "A" 20000000 5, fixtureCoin 1 "B" 5000000 9,
         fixtureCoin 2 "C" 1000000 10]).promise = PromiseState.fulfilled shown
      ∧ shown.Pairwise (fun a b => a.totalSupply.le b.totalSupply = true) := by
  obtain ⟨_, _, shown, hshown, _, horder⟩ := filterFull_composite_same_as_totalSupply
    [fixtureCoin 0 "A" 20000000 5, fixtureCoin 1 "B" 5000000 9, fixtureCoin 2 "C" 1000000 10] 1
  exact ⟨by decide, shown, hshown, horder (by decide)⟩

end Cryptocode
